import Mathlib

/-!
Verification of the reconfiguration core of the `rdk` repository: the
byte-reversed suffix trie (`utils/rtrie/rtrie.go`), the resource index built
on it (`resource/resource_graph_storage.go`), and the config diff engine
(`config/diff.go`).

Modelling conventions, used throughout:

* Go byte strings (trie keys, resource names) are `List Nat` (one `Nat` per
  byte).
* Go maps (`map[byte]*trieNode`, `map[K]T`, ...) are association lists
  `List (K × V)`; `lookupA` is map indexing, `upsertA` is map assignment,
  `eraseA` is `delete`.  Go mutates maps and structs through references; the
  pure model rebuilds the enclosing structure (write-back), which yields the
  same abstract mapping.
* A Go `(T, bool)` "value plus presence" pair whose invariant is
  "`ok = false` implies the value is the zero value" is an `Option T`.
* A Go nil-pointer dereference (a runtime panic) is modelled by returning
  `none` from an `Option`-valued function, so a panicking operation is
  distinguishable from every non-panicking one.
-/

/-! ### Association-list model of Go maps -/

/-- Map indexing `m[k]` on the association-list model of a Go map. -/
def lookupA {K V : Type} [DecidableEq K] (k : K) : List (K × V) → Option V
  | [] => none
  | (k', v) :: rest => if k = k' then some v else lookupA k rest

/-- Map assignment `m[k] = v`: replaces the binding of `k` if present,
otherwise appends a new binding. -/
def upsertA {K V : Type} [DecidableEq K] (k : K) (v : V) : List (K × V) → List (K × V)
  | [] => [(k, v)]
  | (k', v') :: rest => if k = k' then (k, v) :: rest else (k', v') :: upsertA k v rest

/-- Map deletion `delete(m, k)`: removes the binding of `k` if present. -/
def eraseA {K V : Type} [DecidableEq K] (k : K) : List (K × V) → List (K × V)
  | [] => []
  | (k', v') :: rest => if k = k' then rest else (k', v') :: eraseA k rest

/-! ### The suffix trie (`utils/rtrie/rtrie.go`)

`trieNode` holds `children map[byte]*trieNode[T]`, `hasContents bool` and
`contents T`; every write path keeps `hasContents = false` paired with the
zero value, so the pair is modelled as a single `Option T`. -/

/-- Translation of `trieNode[T]`: stored value (if any) and children keyed by
byte. -/
inductive TrieNode (T : Type) : Type where
  | mk : Option T → List (Nat × TrieNode T) → TrieNode T

/-- The `contents`/`hasContents` pair of a node. -/
def TrieNode.val {T : Type} : TrieNode T → Option T
  | .mk v _ => v

/-- The `children` map of a node. -/
def TrieNode.children {T : Type} : TrieNode T → List (Nat × TrieNode T)
  | .mk _ c => c

/-- Translation of `Trie[T]`: a root node (created with an empty children
map and no contents by `NewTrie`). -/
structure Trie (T : Type) : Type where
  root : TrieNode T

/-- Translation of `NewTrie`. -/
def Trie.empty {T : Type} : Trie T := ⟨.mk none []⟩

/-- The walk of `findNode(key, create=false)`, already expressed over the
reversed key (Go iterates `key` from its last byte to its first): descend one
child per byte, failing at the first missing child. -/
def rfind? {T : Type} : TrieNode T → List Nat → Option (TrieNode T)
  | n, [] => some n
  | n, c :: rest =>
    match lookupA c n.children with
    | none => none
    | some child => rfind? child rest

/-- Translation of `Get`: `findNode(key, false)` (returning the zero value
and `false` when the node is absent), then the node's contents.  The
`len(key) < 1` guard in `findNode` makes the empty key a miss. -/
def Trie.get {T : Type} (t : Trie T) (key : List Nat) : Option T :=
  if key = [] then none
  else (rfind? t.root key.reverse).bind TrieNode.val

/-- The walk of `findNode(key, create=true)` followed by the write in `Set`,
over the reversed key: descend one child per byte creating missing children,
then store `v` at the final node, returning the rebuilt node and the previous
contents of the final node. -/
def rset {T : Type} (v : T) : TrieNode T → List Nat → TrieNode T × Option T
  | n, [] => (.mk (some v) n.children, n.val)
  | n, c :: rest =>
    let child := match lookupA c n.children with
      | some ch => ch
      | none => .mk none []
    let res := rset v child rest
    (.mk n.val (upsertA c res.1 n.children), res.2)

/-- Translation of `Set`.  On an empty key, `findNode` returns `nil` and
`Set` dereferences it (`node.contents`): a nil-pointer panic, modelled as
`none`.  Otherwise returns the updated trie and the previous value. -/
def Trie.set {T : Type} (t : Trie T) (key : List Nat) (v : T) :
    Option (Trie T × Option T) :=
  if key = [] then none
  else
    let res := rset v t.root key.reverse
    some (⟨res.1⟩, res.2)

/-- The walk of `findNode(key, false)` followed by the clear in `Delete`,
over the reversed key: at the first missing child the trie is unchanged and
nothing was present; otherwise the final node's contents and presence flag
are cleared (children are not pruned). -/
def rdel {T : Type} : TrieNode T → List Nat → TrieNode T × Option T
  | n, [] => (.mk none n.children, n.val)
  | n, c :: rest =>
    match lookupA c n.children with
    | none => (n, none)
    | some ch =>
      let res := rdel ch rest
      (.mk n.val (upsertA c res.1 n.children), res.2)

/-- Translation of `Delete`: returns the updated trie and the prior
`(value, found)` pair; an absent key (including the empty key) is a no-op. -/
def Trie.delete {T : Type} (t : Trie T) (key : List Nat) : Trie T × Option T :=
  if key = [] then (t, none)
  else
    let res := rdel t.root key.reverse
    (⟨res.1⟩, res.2)

/-- Translation of `ComputeIfAbsent`: `Get`, and on a miss `compute` then
`Set`.  Returns `(trie, value, existed)`; `none` models the panic `Set`
raises on the empty key. -/
def Trie.computeIfAbsent {T : Type} (t : Trie T) (key : List Nat) (compute : Unit → T) :
    Option (Trie T × T × Bool) :=
  match t.get key with
  | some v => some (t, v, true)
  | none =>
    let newVal := compute ()
    match t.set key newVal with
    | none => none
    | some res => some (res.1, newVal, false)

/-- The loop of `FindSuffix`, over the reversed query: follow children byte
by byte, collecting the contents of every node that has contents, stopping at
the first missing child. -/
def rfindSuffix {T : Type} : TrieNode T → List Nat → List T
  | _, [] => []
  | n, c :: rest =>
    match lookupA c n.children with
    | none => []
    | some ch =>
      (match ch.val with
       | some v => [v]
       | none => []) ++ rfindSuffix ch rest

/-- Translation of `FindSuffix` (Go iterates `query` from its last byte to
its first, i.e. walks the reversed query). -/
def Trie.findSuffix {T : Type} (t : Trie T) (query : List Nat) : List T :=
  rfindSuffix t.root query.reverse

/-! ### Specification-side suffix enumeration for C1 -/

/-- The non-empty initial segments of a list, shortest first. -/
def neInits : List Nat → List (List Nat)
  | [] => []
  | c :: rest => [c] :: (neInits rest).map (fun p => c :: p)

/-- The non-empty suffixes of `q`, shortest first (via the reversal
correspondence between suffixes of `q` and initial segments of
`q.reverse`). -/
def neSuffixes (q : List Nat) : List (List Nat) :=
  (neInits q.reverse).map List.reverse

theorem neInits_ne_nil {p : List Nat} {l : List Nat} (h : p ∈ neInits l) : p ≠ [] := by
  induction l generalizing p with
  | nil => simp [neInits] at h
  | cons c rest ih =>
    simp only [neInits, List.mem_cons, List.mem_map] at h
    rcases h with h | ⟨q, _, rfl⟩ <;> simp_all

theorem mem_neInits {p l : List Nat} : p ∈ neInits l ↔ p ≠ [] ∧ p <+: l := by
  induction l generalizing p with
  | nil =>
    simp only [neInits, List.not_mem_nil, false_iff, not_and]
    intro hne hp
    exact hne (List.prefix_nil.mp hp)
  | cons c rest ih =>
    simp only [neInits, List.mem_cons, List.mem_map]
    constructor
    · rintro (rfl | ⟨q, hq, rfl⟩)
      · exact ⟨by simp, ⟨rest, rfl⟩⟩
      · obtain ⟨hne, hpre⟩ := ih.mp hq
        obtain ⟨tl, htl⟩ := hpre
        exact ⟨by simp, ⟨tl, by simp [htl]⟩⟩
    · rintro ⟨hne, hpre⟩
      match p, hne with
      | x :: p', _ =>
        obtain ⟨rest', hrest'⟩ := hpre
        injection hrest' with hx hrest'
        subst hx
        cases p' with
        | nil => exact Or.inl rfl
        | cons y p'' =>
          refine Or.inr ⟨y :: p'', ih.mpr ⟨by simp, ⟨rest', hrest'⟩⟩, rfl⟩

theorem neInits_lengths (l : List Nat) :
    (neInits l).map List.length = List.range' 1 l.length := by
  induction l with
  | nil => simp [neInits]
  | cons c rest ih =>
    simp only [neInits, List.map_cons, List.map_map, List.length_cons]
    have : (List.length ∘ fun p => c :: p) = (fun n => 1 + n) ∘ List.length := by
      funext p; simp [Nat.add_comm]
    rw [this, ← List.map_map, ih, List.range'_succ, List.map_add_range']
    simp

theorem filterMap_congr_mem {α β : Type} {f g : α → Option β} {l : List α}
    (h : ∀ a ∈ l, f a = g a) : l.filterMap f = l.filterMap g := by
  induction l with
  | nil => rfl
  | cons a l ih =>
    rw [List.filterMap_cons, List.filterMap_cons, h a (List.mem_cons_self a l),
      ih fun b hb => h b (List.mem_cons_of_mem a hb)]

theorem rfindSuffix_eq {T : Type} (n : TrieNode T) (rq : List Nat) :
    rfindSuffix n rq = (neInits rq).filterMap fun p => (rfind? n p).bind TrieNode.val := by
  induction rq generalizing n with
  | nil => rfl
  | cons c rest ih =>
    rw [neInits, List.filterMap_cons, List.filterMap_map]
    cases h : lookupA c n.children with
    | none =>
      have h1 : (rfind? n [c]).bind TrieNode.val = none := by simp [rfind?, h]
      have h2 : List.filterMap ((fun p => (rfind? n p).bind TrieNode.val) ∘ fun p => c :: p)
          (neInits rest) = [] := by
        refine List.filterMap_eq_nil_iff.mpr fun p _ => ?_
        simp [Function.comp_def, rfind?, h]
      rw [h1, h2]
      simp [rfindSuffix, h]
    | some ch =>
      have h1 : (rfind? n [c]).bind TrieNode.val = ch.val := by simp [rfind?, h]
      have h2 : List.filterMap ((fun p => (rfind? n p).bind TrieNode.val) ∘ fun p => c :: p)
          (neInits rest) = List.filterMap (fun p => (rfind? ch p).bind TrieNode.val)
          (neInits rest) := by
        refine filterMap_congr_mem fun p _ => ?_
        simp [Function.comp_def, rfind?, h]
      rw [h1, h2, ← ih ch]
      cases hv : ch.val with
      | none => simp [rfindSuffix, h, hv]
      | some v => simp [rfindSuffix, h, hv]

/-- C1: for every trie and every query string `q`, `FindSuffix(q)` returns
exactly the stored values whose keys are (non-empty) suffixes of `q` — the
result is `Get` filtered over the suffixes of `q` — and the suffixes are
visited shortest first, the full string `q` (length `|q|`) last. -/
theorem findSuffix_spec {T : Type} (t : Trie T) (q : List Nat) :
    t.findSuffix q = (neSuffixes q).filterMap t.get ∧
    (∀ s, s ∈ neSuffixes q ↔ s ≠ [] ∧ s <:+ q) ∧
    (neSuffixes q).map List.length = List.range' 1 q.length := by
  refine ⟨?_, ?_, ?_⟩
  · rw [Trie.findSuffix, rfindSuffix_eq, neSuffixes, List.filterMap_map]
    refine filterMap_congr_mem fun p hp => ?_
    have hne : p ≠ [] := neInits_ne_nil hp
    simp only [Function.comp_def, Trie.get]
    rw [if_neg (by simpa using hne), List.reverse_reverse]
  · intro s
    rw [neSuffixes, List.mem_map]
    constructor
    · rintro ⟨p, hp, rfl⟩
      obtain ⟨hne, hpre⟩ := mem_neInits.mp hp
      refine ⟨by simpa using hne, List.reverse_prefix.mp (by simpa using hpre)⟩
    · rintro ⟨hne, hsuf⟩
      refine ⟨s.reverse, mem_neInits.mpr ⟨by simpa using hne, ?_⟩, by simp⟩
      simpa using List.reverse_prefix.mpr hsuf
  · rw [neSuffixes, List.map_map]
    have : (List.length ∘ List.reverse) = (List.length : List Nat → Nat) := by
      funext p; simp
    rw [this, neInits_lengths, List.length_reverse]

/-- C6 (code behaviour at the empty key): `Get`, `Delete` and `FindSuffix`
are silent no-ops on the empty key, but `Set` — and therefore
`ComputeIfAbsent` on a miss — dereferences the `nil` node returned by
`findNode` and panics (modelled as `none`), contradicting the claim that
every operation is a panic-free no-op. -/
theorem emptyKey_behavior {T : Type} (t : Trie T) (v : T) (f : Unit → T) :
    Trie.get t [] = none ∧
    Trie.delete t [] = (t, none) ∧
    Trie.findSuffix t [] = [] ∧
    Trie.set t [] v = none ∧
    Trie.computeIfAbsent t [] f = none := by
  refine ⟨rfl, rfl, rfl, rfl, ?_⟩
  simp [Trie.computeIfAbsent, Trie.get, Trie.set]

/-! ### The generic diff partition (`config/diff.go`, `diffAll` / `diffSingle`)

`diffAll` indexes `left` by key (`leftM`, `leftIndex`), consumes right-side
items, and finally emits the never-consumed left items in sorted original
index order (`sort.Ints`).  `diffSingle` (append to `modified` when
`!left.Equals(right)`) is inlined in the branches of `processRight`.  The Go
map iteration of the final `for k := range leftM` loop is order-insensitive
because the indices are sorted; the model keeps the remaining entries as an
association list and sorts their indices the same way. -/

/-- Accumulated outputs of one `diffAll` call. -/
structure DiffOut (T : Type) : Type where
  modified : List T
  added : List T
  removed : List T
  unmodified : List T
  different : Bool

/-- State after the right-side loop of `diffAll`: outputs so far plus the
remaining `leftM`/`leftIndex` entries `(key, (item, original index))`. -/
structure ProcOut (T K : Type) : Type where
  modified : List T
  added : List T
  unmod : List T
  different : Bool
  rem : List (K × T × Nat)

/-- The left-indexing loop of `diffAll` (`leftM[name] = l; leftIndex[name] = idx`),
carried out with explicit index counter and map accumulator. -/
def buildLeftAux {T K : Type} [DecidableEq K] (getKey : T → K) :
    Nat → List T → List (K × T × Nat) → List (K × T × Nat)
  | _, [], acc => acc
  | i, l :: ls, acc => buildLeftAux getKey (i + 1) ls (upsertA (getKey l) (l, i) acc)

/-- The fully built `leftM`/`leftIndex` map of `diffAll`. -/
def buildLeft {T K : Type} [DecidableEq K] (getKey : T → K) (left : List T) :
    List (K × T × Nat) :=
  buildLeftAux getKey 0 left []

/-- The right-side loop of `diffAll`: look each right item up in the left
map, delete its key either way, and record it as unmodified / modified
(via the inlined `diffSingle`) / added. -/
def processRight {T K : Type} [DecidableEq K] (getKey : T → K) (eqFn : T → T → Bool) :
    List T → List (K × T × Nat) → ProcOut T K
  | [], lm => ⟨[], [], [], false, lm⟩
  | r :: rs, lm =>
    match lookupA (getKey r) lm with
    | some e =>
      let rest := processRight getKey eqFn rs (eraseA (getKey r) lm)
      if eqFn e.1 r then { rest with unmod := r :: rest.unmod }
      else { rest with modified := r :: rest.modified, different := true }
    | none =>
      let rest := processRight getKey eqFn rs (eraseA (getKey r) lm)
      { rest with added := r :: rest.added, different := true }

/-- Translation of `diffAll`.  `track` is whether the caller passed a
non-nil `unmodified` slice (the loop only appends to `unmodified` in that
case); `left[idx]` for the sorted surviving indices is the final removal
loop.  The trailing `different = true` assignments of the removal loop make
`different` true exactly when some entry survived. -/
def diffAll {T K : Type} [DecidableEq K] (getKey : T → K) (eqFn : T → T → Bool)
    (left right : List T) (track : Bool) : DiffOut T :=
  let p := processRight getKey eqFn right (buildLeft getKey left)
  let removedIndexes := List.insertionSort (fun a b => a ≤ b) (p.rem.map fun e => e.2.2)
  { modified := p.modified
    added := p.added
    removed := removedIndexes.filterMap fun i => left[i]?
    unmodified := if track then p.unmod else []
    different := p.different || !p.rem.isEmpty }

/-- Key set of an association list. -/
def keysA {K V : Type} (m : List (K × V)) : List K := m.map Prod.fst

/-- First item of `side` whose key is `k` (the unique one when keys are
duplicate-free): the specification-side counterpart of a Go map lookup. -/
def findByKey {T K : Type} [DecidableEq K] (getKey : T → K) (k : K) (side : List T) :
    Option T :=
  side.find? fun l => decide (getKey l = k)

theorem lookupA_eq_none {K V : Type} [DecidableEq K] {k : K} {m : List (K × V)} :
    lookupA k m = none ↔ k ∉ keysA m := by
  induction m with
  | nil => simp [lookupA, keysA]
  | cons e rest ih =>
    by_cases h : k = e.1
    · simp [lookupA, keysA, h]
    · simp only [lookupA, keysA, List.map_cons, List.mem_cons]
      rw [if_neg (by exact fun hh => h (by simpa using hh))]
      simpa [keysA, h] using ih

theorem lookupA_eraseA_ne {K V : Type} [DecidableEq K] {k k' : K} (m : List (K × V))
    (hne : k' ≠ k) : lookupA k' (eraseA k m) = lookupA k' m := by
  induction m with
  | nil => rfl
  | cons e rest ih =>
    by_cases h : k = e.1
    · rw [eraseA, if_pos (by simpa using h), lookupA, if_neg (fun hh => hne (hh.trans h.symm))]
    · rw [eraseA, if_neg (by simpa using h), lookupA, lookupA, ih]

theorem keysA_eraseA_sublist {K V : Type} [DecidableEq K] (k : K) (m : List (K × V)) :
    (keysA (eraseA k m)).Sublist (keysA m) := by
  induction m with
  | nil => simp [eraseA, keysA]
  | cons e rest ih =>
    by_cases h : k = e.1
    · rw [eraseA, if_pos (by simpa using h)]
      exact (List.sublist_cons_self e.1 (keysA rest))
    · rw [eraseA, if_neg (by simpa using h)]
      exact List.Sublist.cons₂ e.1 ih

theorem eraseA_eq_filter {K V : Type} [DecidableEq K] {k : K} {m : List (K × V)}
    (h : (keysA m).Nodup) : eraseA k m = m.filter fun e => decide ¬(e.1 = k) := by
  induction m with
  | nil => rfl
  | cons e rest ih =>
    simp only [keysA, List.map_cons, List.nodup_cons] at h
    by_cases hk : k = e.1
    · rw [eraseA, if_pos (by simpa using hk), List.filter_cons, if_neg (by simp [hk])]
      have hall : ∀ x ∈ rest, (fun y => decide ¬((y : K × V).1 = k)) x = true := by
        intro x hx
        simp only [decide_eq_true_eq]
        intro hh
        have hx1 : x.1 ∈ List.map Prod.fst rest := List.mem_map_of_mem Prod.fst hx
        rw [hh, hk] at hx1
        exact h.1 hx1
      rw [List.filter_eq_self.mpr hall]
    · rw [eraseA, if_neg (by simpa using hk), List.filter_cons,
        if_pos (by simp only [decide_eq_true_eq]; exact fun hh => hk hh.symm), ih h.2]

theorem eraseA_of_not_mem {K V : Type} [DecidableEq K] {k : K} {m : List (K × V)}
    (h : k ∉ keysA m) : eraseA k m = m := by
  induction m with
  | nil => rfl
  | cons e rest ih =>
    simp only [keysA, List.map_cons, List.mem_cons] at h
    push_neg at h
    rw [eraseA, if_neg h.1, ih (by simpa [keysA] using h.2)]

theorem upsertA_of_not_mem {K V : Type} [DecidableEq K] {k : K} {v : V} {m : List (K × V)}
    (h : k ∉ keysA m) : upsertA k v m = m ++ [(k, v)] := by
  induction m with
  | nil => rfl
  | cons e rest ih =>
    simp only [keysA, List.map_cons, List.mem_cons] at h
    push_neg at h
    rw [upsertA, if_neg h.1, ih (by simpa [keysA] using h.2)]
    rfl

theorem findByKey_isNone {T K : Type} [DecidableEq K] (getKey : T → K) (k : K)
    (side : List T) :
    (findByKey getKey k side).isNone = decide ¬(k ∈ side.map getKey) := by
  induction side with
  | nil => rfl
  | cons s ss ih =>
    by_cases h : getKey s = k
    · simp [findByKey, List.find?_cons, h]
    · simp only [findByKey, List.find?_cons, decide_eq_false h, List.map_cons,
        List.mem_cons] at ih ⊢
      rw [ih]
      simp [show ¬(k = getKey s) from fun hh => h hh.symm]

theorem processRight_rem {T K : Type} [DecidableEq K] (getKey : T → K) (eqFn : T → T → Bool)
    (right : List T) (lm : List (K × T × Nat)) (hlm : (keysA lm).Nodup) :
    (processRight getKey eqFn right lm).rem =
      lm.filter fun e => decide ¬(e.1 ∈ right.map getKey) := by
  induction right generalizing lm with
  | nil =>
    simp only [processRight, List.map_nil]
    refine (List.filter_eq_self.mpr fun x _ => by simp).symm
  | cons r rs ih =>
    have hsub : (keysA (eraseA (getKey r) lm)).Nodup :=
      (keysA_eraseA_sublist (getKey r) lm).nodup hlm
    have hrem : (processRight getKey eqFn (r :: rs) lm).rem =
        (processRight getKey eqFn rs (eraseA (getKey r) lm)).rem := by
      cases hl : lookupA (getKey r) lm with
      | none => simp [processRight, hl]
      | some e => by_cases he : eqFn e.1 r <;> simp [processRight, hl, he]
    rw [hrem, ih _ hsub]
    cases hl : lookupA (getKey r) lm with
    | none =>
      rw [eraseA_of_not_mem (lookupA_eq_none.mp hl)]
      refine List.filter_congr fun e he => ?_
      have hne : e.1 ≠ getKey r := fun hh =>
        lookupA_eq_none.mp hl (hh ▸ List.mem_map_of_mem Prod.fst he)
      by_cases h2 : e.1 ∈ List.map getKey rs <;> simp [h2, hne]
    | some e0 =>
      rw [eraseA_eq_filter hlm, List.filter_filter]
      refine List.filter_congr fun e _ => ?_
      by_cases h1 : e.1 = getKey r <;> by_cases h2 : e.1 ∈ List.map getKey rs <;>
        simp [h1, h2]

theorem processRight_unmod_mem {T K : Type} [DecidableEq K] (getKey : T → K)
    (eqFn : T → T → Bool) (right : List T) (lm : List (K × T × Nat)) :
    ∀ x ∈ (processRight getKey eqFn right lm).unmod, x ∈ right := by
  induction right generalizing lm with
  | nil => intro x hx; simp [processRight] at hx
  | cons r rs ih =>
    intro x hx
    cases hl : lookupA (getKey r) lm with
    | none =>
      simp only [processRight, hl] at hx
      exact List.mem_cons_of_mem r (ih _ x hx)
    | some e =>
      by_cases he : eqFn e.1 r
      · simp only [processRight, hl, he, if_pos] at hx
        rcases List.mem_cons.mp hx with rfl | hx
        · exact List.mem_cons_self x rs
        · exact List.mem_cons_of_mem r (ih _ x hx)
      · simp only [processRight, hl, he] at hx
        exact List.mem_cons_of_mem r (ih _ x hx)

theorem processRight_out {T K : Type} [DecidableEq K] (getKey : T → K) (eqFn : T → T → Bool)
    (right : List T) (lm : List (K × T × Nat)) (hr : (right.map getKey).Nodup) :
    (processRight getKey eqFn right lm).added
      = right.filter (fun r => (lookupA (getKey r) lm).isNone) ∧
    (processRight getKey eqFn right lm).modified
      = right.filter (fun r => match lookupA (getKey r) lm with
          | some e => !eqFn e.1 r
          | none => false) ∧
    (processRight getKey eqFn right lm).unmod
      = right.filter (fun r => match lookupA (getKey r) lm with
          | some e => eqFn e.1 r
          | none => false) := by
  induction right generalizing lm with
  | nil => exact ⟨rfl, rfl, rfl⟩
  | cons r rs ih =>
    simp only [List.map_cons, List.nodup_cons] at hr
    obtain ⟨hnotin, hnd⟩ := hr
    have hlook : ∀ r' ∈ rs,
        lookupA (getKey r') (eraseA (getKey r) lm) = lookupA (getKey r') lm := by
      intro r' hr'
      refine lookupA_eraseA_ne lm fun hh => hnotin ?_
      rw [← hh]
      exact List.mem_map_of_mem getKey hr'
    obtain ⟨ihA, ihM, ihU⟩ := ih (eraseA (getKey r) lm) hnd
    have hA2 : List.filter (fun x => (lookupA (getKey x) (eraseA (getKey r) lm)).isNone) rs
        = List.filter (fun x => (lookupA (getKey x) lm).isNone) rs :=
      List.filter_congr fun x hx => by rw [hlook x hx]
    have hM2 : List.filter (fun x => match lookupA (getKey x) (eraseA (getKey r) lm) with
          | some e => !eqFn e.1 x
          | none => false) rs
        = List.filter (fun x => match lookupA (getKey x) lm with
          | some e => !eqFn e.1 x
          | none => false) rs :=
      List.filter_congr fun x hx => by rw [hlook x hx]
    have hU2 : List.filter (fun x => match lookupA (getKey x) (eraseA (getKey r) lm) with
          | some e => eqFn e.1 x
          | none => false) rs
        = List.filter (fun x => match lookupA (getKey x) lm with
          | some e => eqFn e.1 x
          | none => false) rs :=
      List.filter_congr fun x hx => by rw [hlook x hx]
    cases hl : lookupA (getKey r) lm with
    | none =>
      have pA : (processRight getKey eqFn (r :: rs) lm).added
          = r :: (processRight getKey eqFn rs (eraseA (getKey r) lm)).added := by
        simp [processRight, hl]
      have pM : (processRight getKey eqFn (r :: rs) lm).modified
          = (processRight getKey eqFn rs (eraseA (getKey r) lm)).modified := by
        simp [processRight, hl]
      have pU : (processRight getKey eqFn (r :: rs) lm).unmod
          = (processRight getKey eqFn rs (eraseA (getKey r) lm)).unmod := by
        simp [processRight, hl]
      refine ⟨?_, ?_, ?_⟩
      · rw [pA, ihA, hA2, List.filter_cons, if_pos (by simp [hl])]
      · rw [pM, ihM, hM2, List.filter_cons, if_neg (by simp [hl])]
      · rw [pU, ihU, hU2, List.filter_cons, if_neg (by simp [hl])]
    | some e0 =>
      by_cases he : eqFn e0.1 r
      · have pA : (processRight getKey eqFn (r :: rs) lm).added
            = (processRight getKey eqFn rs (eraseA (getKey r) lm)).added := by
          simp [processRight, hl, he]
        have pM : (processRight getKey eqFn (r :: rs) lm).modified
            = (processRight getKey eqFn rs (eraseA (getKey r) lm)).modified := by
          simp [processRight, hl, he]
        have pU : (processRight getKey eqFn (r :: rs) lm).unmod
            = r :: (processRight getKey eqFn rs (eraseA (getKey r) lm)).unmod := by
          simp [processRight, hl, he]
        refine ⟨?_, ?_, ?_⟩
        · rw [pA, ihA, hA2, List.filter_cons, if_neg (by simp [hl])]
        · rw [pM, ihM, hM2, List.filter_cons, if_neg (by simp [hl, he])]
        · rw [pU, ihU, hU2, List.filter_cons, if_pos (by simp [hl, he])]
      · have pA : (processRight getKey eqFn (r :: rs) lm).added
            = (processRight getKey eqFn rs (eraseA (getKey r) lm)).added := by
          simp [processRight, hl, he]
        have pM : (processRight getKey eqFn (r :: rs) lm).modified
            = r :: (processRight getKey eqFn rs (eraseA (getKey r) lm)).modified := by
          simp [processRight, hl, he]
        have pU : (processRight getKey eqFn (r :: rs) lm).unmod
            = (processRight getKey eqFn rs (eraseA (getKey r) lm)).unmod := by
          simp [processRight, hl, he]
        refine ⟨?_, ?_, ?_⟩
        · rw [pA, ihA, hA2, List.filter_cons, if_neg (by simp [hl])]
        · rw [pM, ihM, hM2, List.filter_cons, if_pos (by simp [hl, he])]
        · rw [pU, ihU, hU2, List.filter_cons, if_neg (by simp [hl, he])]

/-- The left map `diffAll` builds, written directly: entry `(key l, (l, idx))`
for each left item in order.  `buildLeft` coincides with it when left keys are
duplicate-free. -/
def indexedFrom {T K : Type} (getKey : T → K) : Nat → List T → List (K × T × Nat)
  | _, [] => []
  | i, l :: ls => (getKey l, l, i) :: indexedFrom getKey (i + 1) ls

theorem keysA_indexedFrom {T K : Type} (getKey : T → K) (ls : List T) (i : Nat) :
    keysA (indexedFrom getKey i ls) = ls.map getKey := by
  induction ls generalizing i with
  | nil => rfl
  | cons l ls ih => simp [indexedFrom, keysA, List.map_cons] at ih ⊢; exact ih (i + 1)

theorem buildLeftAux_eq {T K : Type} [DecidableEq K] (getKey : T → K) :
    ∀ (ls : List T) (i : Nat) (acc : List (K × T × Nat)),
    (ls.map getKey).Nodup → (∀ l ∈ ls, getKey l ∉ keysA acc) →
    buildLeftAux getKey i ls acc = acc ++ indexedFrom getKey i ls := by
  intro ls
  induction ls with
  | nil => intro i acc _ _; simp [buildLeftAux, indexedFrom]
  | cons l ls ih =>
    intro i acc hnd hfresh
    simp only [List.map_cons, List.nodup_cons] at hnd
    have hup : upsertA (getKey l) (l, i) acc = acc ++ [(getKey l, l, i)] :=
      upsertA_of_not_mem (hfresh l (List.mem_cons_self l ls))
    have hfresh2 : ∀ x ∈ ls, getKey x ∉ keysA (acc ++ [(getKey l, l, i)]) := by
      intro x hx
      simp only [keysA, List.map_append, List.mem_append, List.map_cons, List.map_nil,
        List.mem_singleton]
      push_neg
      refine ⟨hfresh x (List.mem_cons_of_mem l hx), ?_⟩
      exact fun hh => hnd.1 (hh ▸ List.mem_map_of_mem getKey hx)
    rw [buildLeftAux, hup, ih (i + 1) _ hnd.2 hfresh2, indexedFrom]
    simp

theorem buildLeft_eq {T K : Type} [DecidableEq K] (getKey : T → K) (left : List T)
    (hl : (left.map getKey).Nodup) :
    buildLeft getKey left = indexedFrom getKey 0 left := by
  rw [buildLeft, buildLeftAux_eq getKey left 0 [] hl (by intro l _; simp [keysA])]
  rfl

theorem indexedFrom_map_idx {T K : Type} (getKey : T → K) (ls : List T) (i : Nat) :
    (indexedFrom getKey i ls).map (fun e => e.2.2) = List.range' i ls.length := by
  induction ls generalizing i with
  | nil => rfl
  | cons l ls ih => rw [indexedFrom, List.map_cons, ih, List.length_cons, List.range'_succ]

theorem indexedFrom_getElem {T K : Type} (getKey : T → K) :
    ∀ (ls left : List T) (i : Nat), left.drop i = ls →
    ∀ e ∈ indexedFrom getKey i ls, left[e.2.2]? = some e.2.1 := by
  intro ls
  induction ls with
  | nil => intro left i _ e he; simp [indexedFrom] at he
  | cons l ls ih =>
    intro left i hdrop e he
    rw [indexedFrom] at he
    rcases List.mem_cons.mp he with rfl | he
    · have h0 : (left.drop i)[0]? = some l := by rw [hdrop]; simp
      rw [List.getElem?_drop] at h0
      simpa using h0
    · refine ih left (i + 1) ?_ e he
      have h1 : (left.drop i).drop 1 = ls := by rw [hdrop]; simp
      rw [List.drop_drop] at h1
      exact h1

theorem indexedFrom_map_val_filter {T K : Type} (getKey : T → K) (p : K → Bool)
    (ls : List T) (i : Nat) :
    ((indexedFrom getKey i ls).filter fun e => p e.1).map (fun e => e.2.1)
      = ls.filter fun l => p (getKey l) := by
  induction ls generalizing i with
  | nil => rfl
  | cons l ls ih =>
    rw [indexedFrom, List.filter_cons, List.filter_cons]
    by_cases hp : p (getKey l) = true
    · rw [if_pos hp, if_pos hp, List.map_cons, ih]
    · rw [if_neg hp, if_neg hp, ih]

theorem filterMap_eq_map_of_some {α β : Type} {f : α → Option β} {g : α → β} {l : List α}
    (h : ∀ a ∈ l, f a = some (g a)) : l.filterMap f = l.map g := by
  induction l with
  | nil => rfl
  | cons a l ih =>
    rw [List.filterMap_cons, h a (List.mem_cons_self a l), List.map_cons,
      ih fun b hb => h b (List.mem_cons_of_mem a hb)]

theorem sorted_filter_idx {T K : Type} (getKey : T → K) (p : K × T × Nat → Bool)
    (ls : List T) (i : Nat) :
    List.Sorted (fun a b => a ≤ b)
      (((indexedFrom getKey i ls).filter p).map fun e => e.2.2) := by
  have hsub : ((((indexedFrom getKey i ls).filter p).map fun e => e.2.2)).Sublist
      ((indexedFrom getKey i ls).map fun e => e.2.2) :=
    List.Sublist.map _ (List.filter_sublist _)
  rw [indexedFrom_map_idx] at hsub
  have hs : List.Sorted (fun a b => a ≤ b) (List.range' i ls.length) :=
    List.Pairwise.imp Nat.le_of_lt (List.pairwise_lt_range' ..)
  exact List.Pairwise.sublist hsub hs

theorem insertionSort_of_sorted {l : List Nat}
    (h : List.Sorted (fun a b => a ≤ b) l) :
    List.insertionSort (fun a b => a ≤ b) l = l :=
  List.eq_of_perm_of_sorted (List.perm_insertionSort _ l) (List.sorted_insertionSort _ l) h

theorem diffAll_removed_eq {T K : Type} [DecidableEq K] (getKey : T → K)
    (eqFn : T → T → Bool) (left right : List T) (track : Bool)
    (hl : (left.map getKey).Nodup) :
    (diffAll getKey eqFn left right track).removed
      = left.filter fun l => decide ¬(getKey l ∈ right.map getKey) := by
  have hkeys : (keysA (buildLeft getKey left)).Nodup := by
    rw [buildLeft_eq getKey left hl, keysA_indexedFrom]; exact hl
  have hrem : (processRight getKey eqFn right (buildLeft getKey left)).rem
      = (indexedFrom getKey 0 left).filter fun e => decide ¬(e.1 ∈ right.map getKey) := by
    rw [processRight_rem getKey eqFn right _ hkeys, buildLeft_eq getKey left hl]
  show (List.insertionSort (fun a b => a ≤ b)
      ((processRight getKey eqFn right (buildLeft getKey left)).rem.map fun e => e.2.2)).filterMap
      (fun i => left[i]?) = _
  rw [hrem, insertionSort_of_sorted (sorted_filter_idx ..), List.filterMap_map]
  simp only [Function.comp_def]
  rw [filterMap_eq_map_of_some fun e he =>
      indexedFrom_getElem getKey left left 0 (by simp) e (List.mem_of_mem_filter he)]
  exact indexedFrom_map_val_filter getKey (fun k => decide ¬(k ∈ right.map getKey)) left 0

theorem find?_key_of_mem {T K : Type} [DecidableEq K] (getKey : T → K) {l : List T} {k : K}
    (h : (l.map getKey).Nodup) {x : T} (hx : x ∈ l) (hk : getKey x = k) :
    l.find? (fun y => decide (getKey y = k)) = some x := by
  induction l with
  | nil => simp at hx
  | cons a l ih =>
    simp only [List.map_cons, List.nodup_cons] at h
    rcases List.mem_cons.mp hx with rfl | hx'
    · rw [List.find?_cons_of_pos _ (by simp [hk])]
    · by_cases ha : getKey a = k
      · exfalso
        apply h.1
        rw [ha, ← hk]
        exact List.mem_map_of_mem getKey hx'
      · rw [List.find?_cons_of_neg _ (by simp [ha])]
        exact ih h.2 hx'

theorem lookupA_indexedFrom_val {T K : Type} [DecidableEq K] (getKey : T → K)
    (ls : List T) (k : K) (i : Nat) :
    (lookupA k (indexedFrom getKey i ls)).map (fun e => e.1) = findByKey getKey k ls := by
  induction ls generalizing i with
  | nil => rfl
  | cons l ls ih =>
    by_cases h : k = getKey l
    · rw [indexedFrom, lookupA, if_pos h, findByKey,
        List.find?_cons_of_pos _ (by simp [h.symm])]
      rfl
    · rw [indexedFrom, lookupA, if_neg h, findByKey,
        List.find?_cons_of_neg _ (by simp [show ¬(getKey l = k) from fun hh => h hh.symm])]
      exact ih (i + 1)

theorem lookup_buildLeft_cases {T K : Type} [DecidableEq K] (getKey : T → K) (left : List T)
    (hl : (left.map getKey).Nodup) (k : K) :
    (lookupA k (buildLeft getKey left)).map (fun e => e.1) = findByKey getKey k left := by
  rw [buildLeft_eq getKey left hl]
  exact lookupA_indexedFrom_val getKey left k 0

theorem match_lookup_buildLeft {T K : Type} [DecidableEq K] (getKey : T → K) (left : List T)
    (hl : (left.map getKey).Nodup) (f : T → T → Bool) (r : T) (k : K) :
    (match lookupA k (buildLeft getKey left) with
     | some e => f e.1 r
     | none => false)
    = (match findByKey getKey k left with
       | some l => f l r
       | none => false) := by
  have h := lookup_buildLeft_cases getKey left hl k
  cases hlk : lookupA k (buildLeft getKey left) with
  | none => rw [hlk] at h; rw [← h]; rfl
  | some e => rw [hlk] at h; rw [← h]; rfl

theorem isNone_lookup_buildLeft {T K : Type} [DecidableEq K] (getKey : T → K) (left : List T)
    (hl : (left.map getKey).Nodup) (k : K) :
    (lookupA k (buildLeft getKey left)).isNone = (findByKey getKey k left).isNone := by
  have h := lookup_buildLeft_cases getKey left hl k
  cases hlk : lookupA k (buildLeft getKey left) with
  | none => rw [hlk] at h; rw [← h]; rfl
  | some e => rw [hlk] at h; rw [← h]; rfl

theorem diffAll_added_eq {T K : Type} [DecidableEq K] (getKey : T → K) (eqFn : T → T → Bool)
    (left right : List T) (track : Bool)
    (hl : (left.map getKey).Nodup) (hr : (right.map getKey).Nodup) :
    (diffAll getKey eqFn left right track).added
      = right.filter fun r => (findByKey getKey (getKey r) left).isNone := by
  show (processRight getKey eqFn right (buildLeft getKey left)).added = _
  rw [(processRight_out getKey eqFn right _ hr).1]
  exact List.filter_congr fun r _ => isNone_lookup_buildLeft getKey left hl (getKey r)

theorem diffAll_modified_eq {T K : Type} [DecidableEq K] (getKey : T → K) (eqFn : T → T → Bool)
    (left right : List T) (track : Bool)
    (hl : (left.map getKey).Nodup) (hr : (right.map getKey).Nodup) :
    (diffAll getKey eqFn left right track).modified
      = right.filter fun r =>
          match findByKey getKey (getKey r) left with
          | some l => !eqFn l r
          | none => false := by
  show (processRight getKey eqFn right (buildLeft getKey left)).modified = _
  rw [(processRight_out getKey eqFn right _ hr).2.1]
  exact List.filter_congr fun r _ =>
    match_lookup_buildLeft getKey left hl (fun l x => !eqFn l x) r (getKey r)

theorem diffAll_unmodified_eq {T K : Type} [DecidableEq K] (getKey : T → K)
    (eqFn : T → T → Bool) (left right : List T) (track : Bool)
    (hl : (left.map getKey).Nodup) (hr : (right.map getKey).Nodup) :
    (diffAll getKey eqFn left right track).unmodified
      = if track then
          right.filter fun r =>
            match findByKey getKey (getKey r) left with
            | some l => eqFn l r
            | none => false
        else [] := by
  show (if track then (processRight getKey eqFn right (buildLeft getKey left)).unmod else [])
      = _
  cases track with
  | false => rfl
  | true =>
    simp only [if_true]
    rw [(processRight_out getKey eqFn right _ hr).2.2]
    exact List.filter_congr fun r _ =>
      match_lookup_buildLeft getKey left hl (fun l x => eqFn l x) r (getKey r)

theorem diffAll_removed_eq_findByKey {T K : Type} [DecidableEq K] (getKey : T → K)
    (eqFn : T → T → Bool) (left right : List T) (track : Bool)
    (hl : (left.map getKey).Nodup) :
    (diffAll getKey eqFn left right track).removed
      = left.filter fun l => (findByKey getKey (getKey l) right).isNone := by
  rw [diffAll_removed_eq getKey eqFn left right track hl]
  exact (List.filter_congr fun l _ => (findByKey_isNone getKey (getKey l) right)).symm

/-- C2 (amended: within each side the keys are pairwise distinct, as the keyed
configuration collections provide): `diffAll` partitions the keys — a
right-side key absent on the left is added; a key present on both sides with
unequal values has the right-side value recorded as modified; a key present
on both sides with equal values is recorded as unmodified exactly when
tracking is on; a left-side key absent on the right is removed — and every
key occurring on either side lands in exactly one of the five outcomes
(added / modified / removed / tracked-unmodified / untracked-unchanged). -/
theorem diffAll_partition {T K : Type} [DecidableEq K] (getKey : T → K)
    (eqFn : T → T → Bool) (left right : List T) (track : Bool)
    (hl : (left.map getKey).Nodup) (hr : (right.map getKey).Nodup) :
    (diffAll getKey eqFn left right track).added
      = right.filter (fun r => (findByKey getKey (getKey r) left).isNone) ∧
    (diffAll getKey eqFn left right track).modified
      = right.filter (fun r => match findByKey getKey (getKey r) left with
          | some l => !eqFn l r
          | none => false) ∧
    (diffAll getKey eqFn left right track).unmodified
      = (if track then right.filter (fun r => match findByKey getKey (getKey r) left with
          | some l => eqFn l r
          | none => false) else []) ∧
    (diffAll getKey eqFn left right track).removed
      = left.filter (fun l => (findByKey getKey (getKey l) right).isNone) ∧
    ∀ k, k ∈ left.map getKey ∨ k ∈ right.map getKey →
      ((if k ∈ (diffAll getKey eqFn left right track).added.map getKey then 1 else 0) +
       (if k ∈ (diffAll getKey eqFn left right track).modified.map getKey then 1 else 0) +
       (if k ∈ (diffAll getKey eqFn left right track).removed.map getKey then 1 else 0) +
       (if k ∈ (diffAll getKey eqFn left right track).unmodified.map getKey then 1 else 0) +
       (if track = false ∧ ∃ l ∈ left, ∃ r ∈ right,
            getKey l = k ∧ getKey r = k ∧ eqFn l r then 1 else 0) : Nat) = 1 := by
  have hA := diffAll_added_eq getKey eqFn left right track hl hr
  have hM := diffAll_modified_eq getKey eqFn left right track hl hr
  have hU := diffAll_unmodified_eq getKey eqFn left right track hl hr
  have hRm := diffAll_removed_eq_findByKey getKey eqFn left right track hl
  refine ⟨hA, hM, hU, hRm, ?_⟩
  intro k hk
  rw [hA, hM, hU, hRm]
  cases hfL : left.find? (fun y => decide (getKey y = k)) with
  | none =>
    have hfL' : findByKey getKey k left = none := hfL
    have hnoL : ∀ x ∈ left, getKey x ≠ k := by
      intro x hx hxk
      have := List.find?_eq_none.mp hfL x hx
      simp [hxk] at this
    cases hfR : right.find? (fun y => decide (getKey y = k)) with
    | none =>
      exfalso
      have hnoR : ∀ x ∈ right, getKey x ≠ k := by
        intro x hx hxk
        have := List.find?_eq_none.mp hfR x hx
        simp [hxk] at this
      rcases hk with hk | hk <;> obtain ⟨x, hx, hxk⟩ := List.mem_map.mp hk
      · exact hnoL x hx hxk
      · exact hnoR x hx hxk
    | some r0 =>
      have hr0mem : r0 ∈ right := List.mem_of_find?_eq_some hfR
      have hr0k : getKey r0 = k := by
        have := List.find?_some hfR
        simpa using this
      have c1 : k ∈ (right.filter fun r =>
          (findByKey getKey (getKey r) left).isNone).map getKey := by
        refine List.mem_map.mpr ⟨r0, List.mem_filter.mpr ⟨hr0mem, ?_⟩, hr0k⟩
        rw [hr0k, hfL']
        rfl
      have c2 : ¬ k ∈ (right.filter fun r =>
          match findByKey getKey (getKey r) left with
          | some l => !eqFn l r
          | none => false).map getKey := by
        intro hmem
        obtain ⟨r, hrf, hrk⟩ := List.mem_map.mp hmem
        obtain ⟨hrmem, hp⟩ := List.mem_filter.mp hrf
        rw [hrk, hfL'] at hp
        simp at hp
      have c3 : ¬ k ∈ (left.filter fun l =>
          (findByKey getKey (getKey l) right).isNone).map getKey := by
        intro hmem
        obtain ⟨x, hxf, hxk⟩ := List.mem_map.mp hmem
        exact hnoL x (List.mem_of_mem_filter hxf) hxk
      have c4 : ¬ k ∈ ((if track then right.filter (fun r =>
          match findByKey getKey (getKey r) left with
          | some l => eqFn l r
          | none => false) else []).map getKey) := by
        cases track with
        | false => simp
        | true =>
          simp only [if_true]
          intro hmem
          obtain ⟨r, hrf, hrk⟩ := List.mem_map.mp hmem
          obtain ⟨hrmem, hp⟩ := List.mem_filter.mp hrf
          rw [hrk, hfL'] at hp
          simp at hp
      have c5 : ¬ (track = false ∧ ∃ l ∈ left, ∃ r ∈ right,
          getKey l = k ∧ getKey r = k ∧ eqFn l r) := by
        rintro ⟨-, l, hlmem, r, hrmem, hlk, -, -⟩
        exact hnoL l hlmem hlk
      rw [if_pos c1, if_neg c2, if_neg c3, if_neg c4, if_neg c5]
  | some l0 =>
    have hfL' : findByKey getKey k left = some l0 := hfL
    have hl0mem : l0 ∈ left := List.mem_of_find?_eq_some hfL
    have hl0k : getKey l0 = k := by
      have := List.find?_some hfL
      simpa using this
    have huniqL : ∀ x ∈ left, getKey x = k → x = l0 := by
      intro x hx hxk
      have h2 := (find?_key_of_mem getKey hl hx hxk).symm.trans hfL
      exact Option.some.inj h2
    cases hfR : right.find? (fun y => decide (getKey y = k)) with
    | none =>
      have hfR' : findByKey getKey k right = none := hfR
      have hnoR : ∀ x ∈ right, getKey x ≠ k := by
        intro x hx hxk
        have := List.find?_eq_none.mp hfR x hx
        simp [hxk] at this
      have c1 : ¬ k ∈ (right.filter fun r =>
          (findByKey getKey (getKey r) left).isNone).map getKey := by
        intro hmem
        obtain ⟨r, hrf, hrk⟩ := List.mem_map.mp hmem
        exact hnoR r (List.mem_of_mem_filter hrf) hrk
      have c2 : ¬ k ∈ (right.filter fun r =>
          match findByKey getKey (getKey r) left with
          | some l => !eqFn l r
          | none => false).map getKey := by
        intro hmem
        obtain ⟨r, hrf, hrk⟩ := List.mem_map.mp hmem
        exact hnoR r (List.mem_of_mem_filter hrf) hrk
      have c3 : k ∈ (left.filter fun l =>
          (findByKey getKey (getKey l) right).isNone).map getKey := by
        refine List.mem_map.mpr ⟨l0, List.mem_filter.mpr ⟨hl0mem, ?_⟩, hl0k⟩
        rw [hl0k, hfR']
        rfl
      have c4 : ¬ k ∈ ((if track then right.filter (fun r =>
          match findByKey getKey (getKey r) left with
          | some l => eqFn l r
          | none => false) else []).map getKey) := by
        cases track with
        | false => simp
        | true =>
          simp only [if_true]
          intro hmem
          obtain ⟨r, hrf, hrk⟩ := List.mem_map.mp hmem
          exact hnoR r (List.mem_of_mem_filter hrf) hrk
      have c5 : ¬ (track = false ∧ ∃ l ∈ left, ∃ r ∈ right,
          getKey l = k ∧ getKey r = k ∧ eqFn l r) := by
        rintro ⟨-, l, hlmem, r, hrmem, -, hrk, -⟩
        exact hnoR r hrmem hrk
      rw [if_neg c1, if_neg c2, if_pos c3, if_neg c4, if_neg c5]
    | some r0 =>
      have hfR' : findByKey getKey k right = some r0 := hfR
      have hr0mem : r0 ∈ right := List.mem_of_find?_eq_some hfR
      have hr0k : getKey r0 = k := by
        have := List.find?_some hfR
        simpa using this
      have huniqR : ∀ x ∈ right, getKey x = k → x = r0 := by
        intro x hx hxk
        have h2 := (find?_key_of_mem getKey hr hx hxk).symm.trans hfR
        exact Option.some.inj h2
      have c1 : ¬ k ∈ (right.filter fun r =>
          (findByKey getKey (getKey r) left).isNone).map getKey := by
        intro hmem
        obtain ⟨r, hrf, hrk⟩ := List.mem_map.mp hmem
        obtain ⟨hrmem, hp⟩ := List.mem_filter.mp hrf
        rw [hrk, hfL'] at hp
        simp at hp
      have c3 : ¬ k ∈ (left.filter fun l =>
          (findByKey getKey (getKey l) right).isNone).map getKey := by
        intro hmem
        obtain ⟨x, hxf, hxk⟩ := List.mem_map.mp hmem
        obtain ⟨hxmem, hp⟩ := List.mem_filter.mp hxf
        rw [hxk, hfR'] at hp
        simp at hp
      by_cases he : eqFn l0 r0 = true
      · have c2 : ¬ k ∈ (right.filter fun r =>
            match findByKey getKey (getKey r) left with
            | some l => !eqFn l r
            | none => false).map getKey := by
          intro hmem
          obtain ⟨r, hrf, hrk⟩ := List.mem_map.mp hmem
          obtain ⟨hrmem, hp⟩ := List.mem_filter.mp hrf
          rw [huniqR r hrmem hrk] at hp
          rw [hr0k, hfL'] at hp
          simp [he] at hp
        cases track with
        | true =>
          have c4 : k ∈ ((if true then right.filter (fun r =>
              match findByKey getKey (getKey r) left with
              | some l => eqFn l r
              | none => false) else []).map getKey) := by
            simp only [if_true]
            refine List.mem_map.mpr ⟨r0, List.mem_filter.mpr ⟨hr0mem, ?_⟩, hr0k⟩
            rw [hr0k, hfL']
            exact he
          have c5 : ¬ ((true : Bool) = false ∧ ∃ l ∈ left, ∃ r ∈ right,
              getKey l = k ∧ getKey r = k ∧ eqFn l r) := by
            rintro ⟨hh, -⟩
            exact Bool.true_eq_false.mp hh
          rw [if_neg c1, if_neg c2, if_neg c3, if_pos c4, if_neg c5]
        | false =>
          have c4 : ¬ k ∈ ((if false then right.filter (fun r =>
              match findByKey getKey (getKey r) left with
              | some l => eqFn l r
              | none => false) else []).map getKey) := by
            simp
          have c5 : ((false : Bool) = false ∧ ∃ l ∈ left, ∃ r ∈ right,
              getKey l = k ∧ getKey r = k ∧ eqFn l r) :=
            ⟨rfl, l0, hl0mem, r0, hr0mem, hl0k, hr0k, he⟩
          rw [if_neg c1, if_neg c3, if_neg c4, if_pos c5]
          have c2 : ¬ k ∈ (right.filter fun r =>
              match findByKey getKey (getKey r) left with
              | some l => !eqFn l r
              | none => false).map getKey := by
            intro hmem
            obtain ⟨r, hrf, hrk⟩ := List.mem_map.mp hmem
            obtain ⟨hrmem, hp⟩ := List.mem_filter.mp hrf
            rw [huniqR r hrmem hrk] at hp
            rw [hr0k, hfL'] at hp
            simp [he] at hp
          rw [if_neg c2]
      · have c2 : k ∈ (right.filter fun r =>
            match findByKey getKey (getKey r) left with
            | some l => !eqFn l r
            | none => false).map getKey := by
          refine List.mem_map.mpr ⟨r0, List.mem_filter.mpr ⟨hr0mem, ?_⟩, hr0k⟩
          rw [hr0k, hfL']
          simp [he]
        have c4 : ¬ k ∈ ((if track then right.filter (fun r =>
            match findByKey getKey (getKey r) left with
            | some l => eqFn l r
            | none => false) else []).map getKey) := by
          cases track with
          | false => simp
          | true =>
            simp only [if_true]
            intro hmem
            obtain ⟨r, hrf, hrk⟩ := List.mem_map.mp hmem
            obtain ⟨hrmem, hp⟩ := List.mem_filter.mp hrf
            rw [huniqR r hrmem hrk] at hp
            rw [hr0k, hfL'] at hp
            simp [he] at hp
        have c5 : ¬ (track = false ∧ ∃ l ∈ left, ∃ r ∈ right,
            getKey l = k ∧ getKey r = k ∧ eqFn l r) := by
          rintro ⟨-, l, hlmem, r, hrmem, hlk, hrk, hee⟩
          rw [huniqL l hlmem hlk, huniqR r hrmem hrk] at hee
          exact he hee
        rw [if_neg c1, if_pos c2, if_neg c3, if_neg c4, if_neg c5]

/-- C2 counterexample: when the right side carries a duplicate key (key `0`
occurs twice), `diffAll` records key `0` both as unmodified (first
occurrence, equal to the left value) and as added (second occurrence, whose
key was already consumed), so a key is not recorded in exactly one
outcome. -/
theorem diffAll_partition_cex :
    (diffAll Prod.fst (fun a b => decide (a = b))
        [((0 : Nat), (1 : Nat))] [(0, 1), (0, 2)] true).unmodified = [(0, 1)] ∧
    (diffAll Prod.fst (fun a b => decide (a = b))
        [((0 : Nat), (1 : Nat))] [(0, 1), (0, 2)] true).added = [(0, 2)] ∧
    (0 : Nat) ∈ ((diffAll Prod.fst (fun a b => decide (a = b))
        [((0 : Nat), (1 : Nat))] [(0, 1), (0, 2)] true).unmodified.map Prod.fst) ∧
    (0 : Nat) ∈ ((diffAll Prod.fst (fun a b => decide (a = b))
        [((0 : Nat), (1 : Nat))] [(0, 1), (0, 2)] true).added.map Prod.fst) := by
  refine ⟨?_, ?_, ?_, ?_⟩ <;> decide

/-- C2 witness: the amended partition theorem applied to a concrete
duplicate-free instance (left `cam1, cam2(A)`, right `cam2(B), cam3` keyed by
first component). -/
theorem diffAll_partition_witness :
    (diffAll Prod.fst (fun a b => decide (a = b))
        [((1 : Nat), (0 : Nat)), (2, 10)] [(2, 11), (3, 0)] false).added
      = [(3, 0)] ∧
    (diffAll Prod.fst (fun a b => decide (a = b))
        [((1 : Nat), (0 : Nat)), (2, 10)] [(2, 11), (3, 0)] false).modified
      = [(2, 11)] ∧
    (diffAll Prod.fst (fun a b => decide (a = b))
        [((1 : Nat), (0 : Nat)), (2, 10)] [(2, 11), (3, 0)] false).removed
      = [(1, 0)] := by
  obtain ⟨hA, hM, -, hRm, -⟩ := diffAll_partition Prod.fst (fun a b => decide (a = b))
    [((1 : Nat), (0 : Nat)), (2, 10)] [(2, 11), (3, 0)] false (by decide) (by decide)
  refine ⟨hA.trans (by decide), hM.trans (by decide), hRm.trans (by decide)⟩

/-- C3: the removed items of `diffAll` are exactly the left items whose key
does not occur on the right, in their original left-side relative order
(`removed` is the order-preserving filter of `left`, hence a sublist of
`left`), and the result does not depend on the iteration order of the
remaining left-map entries: any permutation of them yields the same removed
list after the index sort. -/
theorem diffAll_removed_order {T K : Type} [DecidableEq K] (getKey : T → K)
    (eqFn : T → T → Bool) (left right : List T) (track : Bool)
    (hl : (left.map getKey).Nodup) :
    (diffAll getKey eqFn left right track).removed
      = left.filter (fun l => (findByKey getKey (getKey l) right).isNone) ∧
    (diffAll getKey eqFn left right track).removed.Sublist left ∧
    ∀ rem' : List (K × T × Nat),
      List.Perm rem' (processRight getKey eqFn right (buildLeft getKey left)).rem →
      (List.insertionSort (fun a b => a ≤ b) (rem'.map fun e => e.2.2)).filterMap
          (fun i => left[i]?)
        = (diffAll getKey eqFn left right track).removed := by
  refine ⟨diffAll_removed_eq_findByKey getKey eqFn left right track hl, ?_, ?_⟩
  · rw [diffAll_removed_eq_findByKey getKey eqFn left right track hl]
    exact List.filter_sublist left
  · intro rem' hperm
    have hsort : List.insertionSort (fun a b => a ≤ b) (rem'.map fun e => e.2.2)
        = List.insertionSort (fun a b => a ≤ b)
            ((processRight getKey eqFn right (buildLeft getKey left)).rem.map
              fun e => e.2.2) := by
      refine List.eq_of_perm_of_sorted ?_ (List.sorted_insertionSort ..)
        (List.sorted_insertionSort ..)
      exact (List.perm_insertionSort ..).trans
        ((hperm.map _).trans (List.perm_insertionSort ..).symm)
    rw [hsort]
    rfl

/-- C3 witness: left order `x, y, z` (keys 1, 2, 3), right omits `y` and `z`;
removed is `y, z` in original order, also when the surviving left-map entries
are enumerated in the reversed (permuted) order. -/
theorem diffAll_removed_order_witness :
    (diffAll Prod.fst (fun a b => decide (a = b))
        [((1 : Nat), (10 : Nat)), (2, 20), (3, 30)] [(1, 10)] false).removed
      = [(2, 20), (3, 30)] ∧
    (List.insertionSort (fun a b => a ≤ b)
        ([((3 : Nat), ((3 : Nat), (30 : Nat)), (2 : Nat)), (2, (2, 20), 1)].map
          fun e => e.2.2)).filterMap
        (fun i => [((1 : Nat), (10 : Nat)), (2, 20), (3, 30)][i]?)
      = [(2, 20), (3, 30)] := by
  have h := diffAll_removed_order Prod.fst (fun a b => decide (a = b))
    [((1 : Nat), (10 : Nat)), (2, 20), (3, 30)] [(1, 10)] false (by decide)
  constructor
  · exact h.1.trans (by decide)
  · rw [h.2.2 [((3 : Nat), ((3 : Nat), (30 : Nat)), (2 : Nat)), (2, (2, 20), 1)] (by decide)]
    exact h.1.trans (by decide)

/-! ### TLS comparison (`config/diff.go`, `diffTLS`)

`tls.Config` is consumed only through `MinVersion`, `GetCertificate(nil)` and
`GetClientCertificate(nil)`; it is modelled by exactly that interface, with
an opaque certificate type compared as `reflect.DeepEqual` compares the
resolved chains.  The Go function returns a plain `bool`, so a resolution
error can only flip the answer, never surface as an error. -/

/-- The interface of `*tls.Config` used by `diffTLS`: a minimum protocol
version and the two certificate-resolution callbacks (invoked with a nil
handshake context, i.e. `none`), each able to fail. -/
structure TLSCfg (Cert : Type) : Type where
  minVersion : Nat
  getCertificate : Option Unit → Except String Cert
  getClientCertificate : Option Unit → Except String Cert

/-- Translation of `diffTLS`: nil/nil equal; nil/non-nil different; else
compare minimum version, then resolve and compare the server certificates,
then the client certificates, treating any resolution error as
"different". -/
def diffTLS {Cert : Type} [DecidableEq Cert] :
    Option (TLSCfg Cert) → Option (TLSCfg Cert) → Bool
  | none, none => false
  | none, some _ => true
  | some _, none => true
  | some l, some r =>
    if l.minVersion ≠ r.minVersion then true
    else
      match l.getCertificate none with
      | .error _ => true
      | .ok lc =>
        match r.getCertificate none with
        | .error _ => true
        | .ok rc =>
          if lc ≠ rc then true
          else
            match l.getClientCertificate none with
            | .error _ => true
            | .ok lcc =>
              match r.getClientCertificate none with
              | .error _ => true
              | .ok rcc => if lcc ≠ rcc then true else false

/-- C4: the TLS comparison declares two configs equal exactly when both are
absent, or both are present with the same minimum protocol version and both
certificate resolutions succeed on both sides with equal server certificates
and equal client certificates; one absent and one present compare different,
and any resolution error yields "different" (the comparison is a total
`Bool`, so no error is ever propagated). -/
theorem diffTLS_spec {Cert : Type} [DecidableEq Cert]
    (l r : Option (TLSCfg Cert)) :
    diffTLS l r = false ↔
      (l = none ∧ r = none) ∨
      (∃ cl cr, l = some cl ∧ r = some cr ∧
        cl.minVersion = cr.minVersion ∧
        (∃ c, cl.getCertificate none = .ok c ∧ cr.getCertificate none = .ok c) ∧
        (∃ c, cl.getClientCertificate none = .ok c ∧
          cr.getClientCertificate none = .ok c)) := by
  cases l with
  | none =>
    cases r with
    | none => simp [diffTLS]
    | some cr => simp [diffTLS]
  | some cl =>
    cases r with
    | none => simp [diffTLS]
    | some cr =>
      by_cases hv : cl.minVersion = cr.minVersion
      · cases h1 : cl.getCertificate none with
        | error e1 => simp [diffTLS, hv, h1]
        | ok c1 =>
          cases h2 : cr.getCertificate none with
          | error e2 => simp [diffTLS, hv, h1, h2]
          | ok c2 =>
            by_cases hc : c1 = c2
            · cases h3 : cl.getClientCertificate none with
              | error e3 => simp [diffTLS, hv, h1, h2, hc, h3]
              | ok c3 =>
                cases h4 : cr.getClientCertificate none with
                | error e4 => simp [diffTLS, hv, h1, h2, hc, h3, h4]
                | ok c4 =>
                  by_cases hcc : c3 = c4 <;>
                    simp [diffTLS, hv, h1, h2, hc, h3, h4, hcc]
            · simp [diffTLS, hv, h1, h2, hc]
      · simp [diffTLS, hv]

/-! ### Configuration snapshots (`config/diff.go`)

The `Config` struct and the element types of its six collections are defined
outside the provided sources (only `diff.go` is given), so they are modelled
from the spec with exactly the fields `DiffConfigs` / `prettyDiff` read:
each collection's key, each item's value-equality, the revision marker, the
networking / auth / log blocks, and the sensitive fields the redaction pass
masks. -/

/-- Modelled from the spec: one stored location secret
(`Cloud.LocationSecrets[i].Secret`). -/
structure LocationSecret : Type where
  secret : String
deriving DecidableEq

/-- Modelled from the spec: the cloud connection settings, with the masked
fields of `sanitizeConfig` plus a non-sensitive identifier. -/
structure CloudCfg : Type where
  id : String
  secret : String
  locationSecret : String
  locationSecrets : List LocationSecret
  tlsCertificate : String
  tlsPrivateKey : String
deriving DecidableEq

/-- Modelled from the spec: credentials carrying a payload
(`rem.Auth.Credentials.Payload`). -/
structure Creds : Type where
  payload : String
deriving DecidableEq

/-- Modelled from the spec: a remote's auth block. -/
structure RemoteAuth : Type where
  credentials : Option Creds
  signalingCreds : Option Creds
deriving DecidableEq

/-- Modelled from the spec: a remote peer entry, keyed by name. -/
structure Remote : Type where
  name : String
  address : String
  secret : String
  auth : RemoteAuth
deriving DecidableEq

/-- Modelled from the spec: an auth handler whose config map values are all
masked by redaction. -/
structure AuthHandler : Type where
  typ : String
  config : List (String × String)
deriving DecidableEq

/-- Modelled from the spec: the authentication block. -/
structure AuthConfig : Type where
  handlers : List AuthHandler
deriving DecidableEq

/-- Modelled from the spec: a component or service configuration, keyed by
its resource name (base name and API). -/
structure ResourceCfg : Type where
  name : String
  api : String
  attributes : String
deriving DecidableEq

/-- Modelled from the spec: a managed process configuration, keyed by ID. -/
structure ProcessCfg : Type where
  id : String
  cmd : String
deriving DecidableEq

/-- Modelled from the spec: a package, keyed by name. -/
structure PackageCfg : Type where
  name : String
  version : String
deriving DecidableEq

/-- Modelled from the spec: a module, keyed by name. -/
structure ModuleCfg : Type where
  name : String
  path : String
deriving DecidableEq

/-- Modelled from the spec: the network transport settings: the TLS config
(callback-valued, compared by `diffTLS`) and the remaining plainly comparable
fields (represented by the bind address). -/
structure NetworkCfg : Type where
  bindAddress : String
  tlsConfig : Option (TLSCfg String)

/-- Modelled from the spec: a configuration snapshot with the fields the
diff engine reads. -/
structure Config : Type where
  revision : String
  cloud : Option CloudCfg
  remotes : List Remote
  components : List ResourceCfg
  services : List ResourceCfg
  processes : List ProcessCfg
  packages : List PackageCfg
  modules : List ModuleCfg
  network : NetworkCfg
  auth : AuthConfig
  enableWebProfile : Bool
  logConfig : List String

/-- The zero-value `Config` (`&Config{}`). -/
def Config.empty : Config :=
  { revision := ""
    cloud := none
    remotes := []
    components := []
    services := []
    processes := []
    packages := []
    modules := []
    network := { bindAddress := "", tlsConfig := none }
    auth := { handlers := [] }
    enableWebProfile := false
    logConfig := [] }

/-- Translation of `diffNetwork`: the TLS configs are compared by `diffTLS`;
the rest of the struct is compared with the TLS callbacks nilled out, i.e.
field-by-field on the remaining fields. -/
def diffNetwork (l r : NetworkCfg) : Bool :=
  if diffTLS l.tlsConfig r.tlsConfig then true
  else !(decide (l.bindAddress = r.bindAddress))

/-- Translation of `diffNetworkingCfg`: deep equality on cloud settings,
`diffNetwork` on transport, deep equality on auth and on the web-profile
flag. -/
def diffNetworkingCfg (l r : Config) : Bool :=
  if !(decide (l.cloud = r.cloud)) then true
  else if diffNetwork l.network r.network then true
  else if !(decide (l.auth = r.auth)) then true
  else if !(decide (l.enableWebProfile = r.enableWebProfile)) then true
  else false

/-- Translation of `diffLogCfg`: different when the log config differs or
when any service or component changed. -/
def diffLogCfg (l r : Config) (servicesDifferent componentsDifferent : Bool) : Bool :=
  if !(decide (l.logConfig = r.logConfig)) then true
  else if servicesDifferent || componentsDifferent then true
  else false

/-- Translation of `ModifiedConfigDiff`. -/
structure ModifiedConfigDiff : Type where
  remotes : List Remote
  components : List ResourceCfg
  processes : List ProcessCfg
  services : List ResourceCfg
  packages : List PackageCfg
  modules : List ModuleCfg

/-- Translation of `Diff`. -/
structure Diff : Type where
  left : Config
  right : Config
  added : Config
  modified : ModifiedConfigDiff
  removed : Config
  resourcesEqual : Bool
  networkEqual : Bool
  logEqual : Bool
  prettyDiff : String
  unmodifiedResources : List ResourceCfg

/-- The collection-diffing body of `DiffConfigs` (everything after the
pretty-diff step): the six `diffAll` calls — remotes by name, components and
services by resource name (tracking unmodified items exactly when the
revision markers differ, into one shared list, components first), processes
by ID, packages and modules by name — the OR of the per-collection flags,
and the network and log comparisons.  The `Equatable` value-equality of the
item types is modelled from the spec as structural equality. -/
def buildDiff (l r : Config) (pretty : String) : Diff :=
  let track := !(decide (l.revision = r.revision))
  let dRem := diffAll (fun (x : Remote) => x.name)
    (fun a b => decide (a = b)) l.remotes r.remotes false
  let dCom := diffAll (fun (x : ResourceCfg) => (x.name, x.api))
    (fun a b => decide (a = b)) l.components r.components track
  let dSer := diffAll (fun (x : ResourceCfg) => (x.name, x.api))
    (fun a b => decide (a = b)) l.services r.services track
  let dPro := diffAll (fun (x : ProcessCfg) => x.id)
    (fun a b => decide (a = b)) l.processes r.processes false
  let dPak := diffAll (fun (x : PackageCfg) => x.name)
    (fun a b => decide (a = b)) l.packages r.packages false
  let dMod := diffAll (fun (x : ModuleCfg) => x.name)
    (fun a b => decide (a = b)) l.modules r.modules false
  let different := dRem.different || dCom.different || dSer.different ||
    dPro.different || dPak.different || dMod.different
  { left := l
    right := r
    added := { Config.empty with
      remotes := dRem.added
      components := dCom.added
      services := dSer.added
      processes := dPro.added
      packages := dPak.added
      modules := dMod.added }
    modified := { remotes := dRem.modified
                  components := dCom.modified
                  services := dSer.modified
                  processes := dPro.modified
                  packages := dPak.modified
                  modules := dMod.modified }
    removed := { Config.empty with
      remotes := dRem.removed
      components := dCom.removed
      services := dSer.removed
      processes := dPro.removed
      packages := dPak.removed
      modules := dMod.removed }
    resourcesEqual := !different
    networkEqual := !(diffNetworkingCfg l r)
    logEqual := !(diffLogCfg l r dSer.different dCom.different)
    prettyDiff := pretty
    unmodifiedResources := dCom.unmodified ++ dSer.unmodified }

/-! ### Redacted pretty diff (`config/diff.go`, `prettyDiff`)

`prettyDiff` round-trips the snapshots through `json.Marshal`/`Unmarshal` to
obtain private deep copies, masks the sensitive fields, serializes both with
stable formatting, and renders the non-equal spans of a text diff.  On pure
values the round-trip deep copy is the identity, so the concrete model
applies `sanitizeConfig` directly; the fallible serialization steps are kept
abstract in `prettyDiffE` below for the error-behaviour claim. -/

/-- The constant mask string of `prettyDiff`. -/
def maskStr : String := "******"

/-- Translation of `sanitizeConfig`: masks the non-empty cloud secrets and
TLS material, every auth-handler config value, and every remote's secret and
credential payloads. -/
def sanitizeConfig (conf : Config) : Config :=
  let cloud := match conf.cloud with
    | none => none
    | some c =>
      some { c with
        secret := if c.secret = "" then c.secret else maskStr
        locationSecret := if c.locationSecret = "" then c.locationSecret else maskStr
        locationSecrets := c.locationSecrets.map fun s =>
          { s with secret := if s.secret = "" then s.secret else maskStr }
        tlsCertificate := if c.tlsCertificate = "" then c.tlsCertificate else maskStr
        tlsPrivateKey := if c.tlsPrivateKey = "" then c.tlsPrivateKey else maskStr }
  let handlers := conf.auth.handlers.map fun h =>
    { h with config := h.config.map fun kv => (kv.1, maskStr) }
  let remotes := conf.remotes.map fun rem =>
    { rem with
      secret := if rem.secret = "" then rem.secret else maskStr
      auth := { credentials := rem.auth.credentials.map fun _ => ⟨maskStr⟩
                signalingCreds := rem.auth.signalingCreds.map fun _ => ⟨maskStr⟩ } }
  { conf with cloud := cloud, auth := ⟨handlers⟩, remotes := remotes }

/-- Modelled from the spec: deterministic, stably formatted rendering of a
snapshot (the role `json.MarshalIndent` plays for the pretty diff): every
field appears labelled, in declaration order. -/
def renderCloud : Option CloudCfg → String
  | none => "cloud:nil\n"
  | some c =>
    "cloud.id:" ++ c.id ++ "\ncloud.secret:" ++ c.secret ++
    "\ncloud.locationSecret:" ++ c.locationSecret ++
    "\ncloud.locationSecrets:" ++
      String.intercalate "," (c.locationSecrets.map LocationSecret.secret) ++
    "\ncloud.tlsCertificate:" ++ c.tlsCertificate ++
    "\ncloud.tlsPrivateKey:" ++ c.tlsPrivateKey ++ "\n"

/-- Rendering of one remote entry. -/
def renderRemote (rem : Remote) : String :=
  rem.name ++ ":" ++ rem.address ++ ":" ++ rem.secret ++ ":" ++
  (match rem.auth.credentials with
   | none => "-"
   | some c => c.payload) ++ ":" ++
  (match rem.auth.signalingCreds with
   | none => "-"
   | some c => c.payload) ++ ";"

/-- Rendering of one component/service entry. -/
def renderResource (c : ResourceCfg) : String :=
  c.name ++ ":" ++ c.api ++ ":" ++ c.attributes ++ ";"

/-- Rendering of one auth handler. -/
def renderHandler (h : AuthHandler) : String :=
  h.typ ++ ":" ++
  String.intercalate "," (h.config.map fun kv => kv.1 ++ "=" ++ kv.2) ++ ";"

/-- Rendering of a whole snapshot. -/
def renderConfig (c : Config) : String :=
  "revision:" ++ c.revision ++ "\n" ++ renderCloud c.cloud ++
  "remotes:" ++ String.join (c.remotes.map renderRemote) ++ "\n" ++
  "components:" ++ String.join (c.components.map renderResource) ++ "\n" ++
  "services:" ++ String.join (c.services.map renderResource) ++ "\n" ++
  "processes:" ++ String.join (c.processes.map fun p => p.id ++ ":" ++ p.cmd ++ ";") ++ "\n" ++
  "packages:" ++ String.join (c.packages.map fun p => p.name ++ ":" ++ p.version ++ ";") ++ "\n" ++
  "modules:" ++ String.join (c.modules.map fun m => m.name ++ ":" ++ m.path ++ ";") ++ "\n" ++
  "network:" ++ c.network.bindAddress ++ "\n" ++
  "auth:" ++ String.join (c.auth.handlers.map renderHandler) ++ "\n" ++
  "webProfile:" ++ (if c.enableWebProfile then "on" else "off") ++ "\n" ++
  "logConfig:" ++ String.intercalate "," c.logConfig ++ "\n"

/-- Length of the longest common prefix of two character lists. -/
def commonPreLen : List Char → List Char → Nat
  | a :: as, b :: bs => if a = b then commonPreLen as bs + 1 else 0
  | _, _ => 0

/-- A text-diff span kind (`diffmatchpatch.Diff.Type`). -/
inductive DiffOp : Type where
  | eq
  | del
  | ins
deriving DecidableEq

/-- Modelled from the library interface of `diffmatchpatch.DiffMain`: the
two texts are decomposed into equal, deleted and inserted spans whose
concatenations reproduce the respective inputs; modelled as the longest
common prefix (equal), the two differing middles (deleted from the left,
inserted from the right), and the longest common suffix (equal). -/
def dmpDiff (a b : String) : List (DiffOp × String) :=
  let la := a.toList
  let lb := b.toList
  let p := commonPreLen la lb
  let la1 := la.drop p
  let lb1 := lb.drop p
  let s := commonPreLen la1.reverse lb1.reverse
  [(.eq, String.mk (la.take p)),
   (.del, String.mk (la1.take (la1.length - s))),
   (.ins, String.mk (lb1.take (lb1.length - s))),
   (.eq, String.mk (la1.drop (la1.length - s)))]

/-- Translation of `DiffPrettyText`: inserted spans wrapped in green ANSI
codes, deleted spans in red, equal spans verbatim. -/
def diffPrettyText (ds : List (DiffOp × String)) : String :=
  String.join (ds.map fun d =>
    match d.1 with
    | .ins => "\x1b[32m" ++ d.2 ++ "\x1b[0m"
    | .del => "\x1b[31m" ++ d.2 ++ "\x1b[0m"
    | .eq => d.2)

/-- Translation of `prettyDiff` (with the round-trip deep copy as identity
and the serialization steps assumed to succeed): sanitize both snapshots,
serialize with stable formatting, diff the texts, drop the equal spans and
render the rest. -/
def prettyDiff (left right : Config) : String :=
  let l := sanitizeConfig left
  let r := sanitizeConfig right
  let leftMd := renderConfig l
  let rightMd := renderConfig r
  diffPrettyText ((dmpDiff leftMd rightMd).filter fun d => !(decide (d.1 = DiffOp.eq)))

/-- Translation of `DiffConfigs` with total serialization: compute the
pretty diff exactly when requested, then the collection diffs. -/
def DiffConfigs (left right : Config) (revealSensitiveConfigDiffs : Bool) : Diff :=
  buildDiff left right (if revealSensitiveConfigDiffs then prettyDiff left right else "")

/-- Translation of `prettyDiff` with the serialization steps abstract: `jm`
is `json.Marshal`, `ju` is `json.Unmarshal` (producing the private deep
copy), `jmi` is `json.MarshalIndent`; failures propagate in the order the Go
code performs the steps. -/
def prettyDiffE {E : Type} (jm : Config → Except E String)
    (ju : String → Except E Config) (jmi : Config → Except E String)
    (left right : Config) : Except E String :=
  match jm left with
  | .error e => .error e
  | .ok leftMd =>
    match jm right with
    | .error e => .error e
    | .ok rightMd =>
      match ju leftMd with
      | .error e => .error e
      | .ok leftClone =>
        match ju rightMd with
        | .error e => .error e
        | .ok rightClone =>
          let l := sanitizeConfig leftClone
          let r := sanitizeConfig rightClone
          match jmi l with
          | .error e => .error e
          | .ok lmd =>
            match jmi r with
            | .error e => .error e
            | .ok rmd =>
              .ok (diffPrettyText ((dmpDiff lmd rmd).filter
                fun d => !(decide (d.1 = DiffOp.eq))))

/-- Translation of `DiffConfigs` over the abstract serialization: when the
pretty diff is requested and fails, return that error and no `Diff`;
otherwise build the diff. -/
def DiffConfigsE {E : Type} (jm : Config → Except E String)
    (ju : String → Except E Config) (jmi : Config → Except E String)
    (left right : Config) (revealSensitiveConfigDiffs : Bool) : Except E Diff :=
  if revealSensitiveConfigDiffs then
    match prettyDiffE jm ju jmi left right with
    | .error e => .error e
    | .ok p => .ok (buildDiff left right p)
  else .ok (buildDiff left right "")

/-- Concrete left snapshot for the redaction counterexample:
`Cloud.Secret = "s3cr3t"`, one component with attribute `"x"`. -/
def cexLeft : Config :=
  { Config.empty with
    cloud := some { id := "robot"
                    secret := "s3cr3t"
                    locationSecret := ""
                    locationSecrets := []
                    tlsCertificate := ""
                    tlsPrivateKey := "" }
    components := [{ name := "cam", api := "camera", attributes := "x" }] }

/-- Substring test: `containsSub needle hay` is true when `needle` occurs
contiguously inside `hay`. -/
def containsSub (needle : List Char) : List Char → Bool
  | [] => needle.isEmpty
  | c :: t => needle.isPrefixOf (c :: t) || containsSub needle t

/-- Concrete right snapshot: same cloud secret, but the component's
attribute — a field redaction does not touch — is the string `"s3cr3t"`. -/
def cexRight : Config :=
  { cexLeft with
    components := [{ name := "cam", api := "camera", attributes := "s3cr3t" }] }

/-- C5 counterexample: with `Cloud.Secret = "s3cr3t"` in both snapshots (so
the secret field itself is masked), a changed component attribute that
happens to contain the same string lands in an inserted span of the rendered
pretty diff, so the output does contain the substring `"s3cr3t"`. -/
theorem prettyDiff_secret_cex :
    cexLeft.cloud.map CloudCfg.secret = some "s3cr3t" ∧
    cexRight.cloud.map CloudCfg.secret = some "s3cr3t" ∧
    containsSub "s3cr3t".toList (prettyDiff cexLeft cexRight).toList = true := by
  refine ⟨rfl, rfl, ?_⟩
  set_option maxRecDepth 100000 in decide

/-- Replace the cloud connection secret (when a cloud config is present). -/
def withCloudSecret (c : Config) (s : String) : Config :=
  { c with cloud := c.cloud.map fun cl => { cl with secret := s } }

/-- C5 (amended): the pretty diff never reveals `Cloud.Secret` through the
secret field: every non-empty secret is replaced by the mask before
serialization, so the rendered diff is the same whatever non-empty values
the two snapshots' secrets hold; the secret string can appear in the output
only when it also occurs in a field that redaction does not mask, as the
counterexample exhibits. -/
theorem prettyDiff_secret_noninterference (l r : Config) (s1 s2 t1 t2 : String)
    (h1 : s1 ≠ "") (h2 : s2 ≠ "") (h3 : t1 ≠ "") (h4 : t2 ≠ "") :
    prettyDiff (withCloudSecret l s1) (withCloudSecret r s2)
      = prettyDiff (withCloudSecret l t1) (withCloudSecret r t2) := by
  have key : ∀ (c : Config) (s t : String), s ≠ "" → t ≠ "" →
      sanitizeConfig (withCloudSecret c s) = sanitizeConfig (withCloudSecret c t) := by
    intro c s t hs ht
    unfold sanitizeConfig withCloudSecret
    cases c.cloud with
    | none => rfl
    | some cl => simp [hs, ht]
  show diffPrettyText ((dmpDiff
      (renderConfig (sanitizeConfig (withCloudSecret l s1)))
      (renderConfig (sanitizeConfig (withCloudSecret r s2)))).filter
      fun d => !(decide (d.1 = DiffOp.eq))) = _
  rw [key l s1 t1 h1 h3, key r s2 t2 h2 h4]
  rfl

/-- C5 witness: the noninterference theorem applied at concrete snapshots
and concrete non-empty secret values. -/
theorem prettyDiff_secret_noninterference_witness :
    prettyDiff (withCloudSecret cexLeft "aaa") (withCloudSecret cexRight "bbb")
      = prettyDiff (withCloudSecret cexLeft "s3cr3t") (withCloudSecret cexRight "zzz") :=
  prettyDiff_secret_noninterference cexLeft cexRight "aaa" "bbb" "s3cr3t" "zzz"
    (by decide) (by decide) (by decide) (by decide)

/-- C9: `DiffConfigsE` returns an error exactly when pretty-diff rendering
was requested and `prettyDiffE` failed, and then it returns that very error
(and, by the `Except` type, no `Diff`); in every other case it returns a
`Diff`.  `prettyDiffE` itself fails exactly when one of the marshal /
unmarshal / marshal-indent steps on either snapshot fails. -/
theorem DiffConfigs_error_spec {E : Type} (jm : Config → Except E String)
    (ju : String → Except E Config) (jmi : Config → Except E String)
    (left right : Config) (rv : Bool) :
    (∀ e, DiffConfigsE jm ju jmi left right rv = .error e ↔
      rv = true ∧ prettyDiffE jm ju jmi left right = .error e) ∧
    (¬(rv = true ∧ ∃ e, prettyDiffE jm ju jmi left right = .error e) →
      ∃ d, DiffConfigsE jm ju jmi left right rv = .ok d) ∧
    ((∃ e, prettyDiffE jm ju jmi left right = .error e) ↔
      ¬ ∃ lmd rmd lc rc lout rout,
        jm left = .ok lmd ∧ jm right = .ok rmd ∧
        ju lmd = .ok lc ∧ ju rmd = .ok rc ∧
        jmi (sanitizeConfig lc) = .ok lout ∧ jmi (sanitizeConfig rc) = .ok rout) := by
  refine ⟨?_, ?_, ?_⟩
  · intro e
    cases rv with
    | false => simp [DiffConfigsE]
    | true =>
      cases hp : prettyDiffE jm ju jmi left right with
      | error e0 => simp [DiffConfigsE, hp]
      | ok p => simp [DiffConfigsE, hp]
  · intro h
    cases rv with
    | false => exact ⟨buildDiff left right "", by simp [DiffConfigsE]⟩
    | true =>
      cases hp : prettyDiffE jm ju jmi left right with
      | error e0 => exact absurd ⟨rfl, e0, hp⟩ h
      | ok p => exact ⟨buildDiff left right p, by simp [DiffConfigsE, hp]⟩
  · cases h1 : jm left with
    | error e1 => simp [prettyDiffE, h1]
    | ok lmd =>
      cases h2 : jm right with
      | error e2 => simp [prettyDiffE, h1, h2]
      | ok rmd =>
        cases h3 : ju lmd with
        | error e3 => simp [prettyDiffE, h1, h2, h3]
        | ok lc =>
          cases h4 : ju rmd with
          | error e4 => simp [prettyDiffE, h1, h2, h3, h4]
          | ok rc =>
            cases h5 : jmi (sanitizeConfig lc) with
            | error e5 => simp [prettyDiffE, h1, h2, h3, h4, h5]
            | ok lout =>
              cases h6 : jmi (sanitizeConfig rc) with
              | error e6 => simp [prettyDiffE, h1, h2, h3, h4, h5, h6]
              | ok rout => simp [prettyDiffE, h1, h2, h3, h4, h5, h6]

/-- C9 witness: with serialization steps that all succeed, `DiffConfigsE`
with rendering requested returns a `Diff`. -/
theorem DiffConfigs_error_spec_witness :
    ∃ d : Diff, DiffConfigsE (E := String) (fun _ => Except.ok "L")
      (fun _ => Except.ok Config.empty) (fun _ => Except.ok "P")
      Config.empty Config.empty true = Except.ok d :=
  (DiffConfigs_error_spec (E := String) (fun _ => Except.ok "L")
    (fun _ => Except.ok Config.empty) (fun _ => Except.ok "P")
    Config.empty Config.empty true).2.1
    (by rintro ⟨-, e, h⟩; simp [prettyDiffE] at h)

theorem diffAll_unmod_mem {T K : Type} [DecidableEq K] (getKey : T → K)
    (eqFn : T → T → Bool) (left right : List T) (track : Bool) :
    ∀ x ∈ (diffAll getKey eqFn left right track).unmodified, x ∈ right := by
  show ∀ x ∈ (if track
      then (processRight getKey eqFn right (buildLeft getKey left)).unmod else []), _
  cases track with
  | false => intro x hx; simp at hx
  | true => exact fun x hx => processRight_unmod_mem getKey eqFn right _ x hx

/-- C10: every entry of `UnmodifiedResources` comes from the right
snapshot's components or services collections — unchanged remotes,
processes, packages and modules are never recorded there (their `diffAll`
calls get no unmodified slice) — and when the revision markers agree nothing
is recorded at all. -/
theorem DiffConfigs_unmodified_spec (l r : Config) (rv : Bool) :
    (∀ x ∈ (DiffConfigs l r rv).unmodifiedResources,
      x ∈ r.components ∨ x ∈ r.services) ∧
    (l.revision = r.revision → (DiffConfigs l r rv).unmodifiedResources = []) := by
  constructor
  · intro x hx
    have hx2 : x ∈ (diffAll (fun (y : ResourceCfg) => (y.name, y.api))
        (fun a b => decide (a = b)) l.components r.components
        (!(decide (l.revision = r.revision)))).unmodified ++
        (diffAll (fun (y : ResourceCfg) => (y.name, y.api))
        (fun a b => decide (a = b)) l.services r.services
        (!(decide (l.revision = r.revision)))).unmodified := hx
    rcases List.mem_append.mp hx2 with hmem | hmem
    · exact Or.inl (diffAll_unmod_mem _ _ _ _ _ x hmem)
    · exact Or.inr (diffAll_unmod_mem _ _ _ _ _ x hmem)
  · intro hrev
    show (diffAll (fun (y : ResourceCfg) => (y.name, y.api))
        (fun a b => decide (a = b)) l.components r.components
        (!(decide (l.revision = r.revision)))).unmodified ++
        (diffAll (fun (y : ResourceCfg) => (y.name, y.api))
        (fun a b => decide (a = b)) l.services r.services
        (!(decide (l.revision = r.revision)))).unmodified = []
    rw [hrev]
    have ht : (!(decide (r.revision = r.revision))) = false := by simp
    rw [ht]
    rfl

/-- Concrete snapshots for the C10 witness: identical single component,
differing revisions (so unmodified tracking is on). -/
def unmodWitLeft : Config :=
  { Config.empty with
    revision := "r1"
    components := [{ name := "cam", api := "camera", attributes := "x" }] }

/-- The right-side snapshot of the C10 witness. -/
def unmodWitRight : Config :=
  { unmodWitLeft with revision := "r2" }

/-- C10 witness: the unchanged component tracked by a revision-changing diff
is an item of the right snapshot's components, and a same-revision diff
tracks nothing. -/
theorem DiffConfigs_unmodified_witness :
    ((⟨"cam", "camera", "x"⟩ : ResourceCfg) ∈ unmodWitRight.components ∨
     (⟨"cam", "camera", "x"⟩ : ResourceCfg) ∈ unmodWitRight.services) ∧
    (DiffConfigs unmodWitLeft unmodWitLeft false).unmodifiedResources = [] := by
  constructor
  · exact (DiffConfigs_unmodified_spec unmodWitLeft unmodWitRight false).1 _ (by decide)
  · exact (DiffConfigs_unmodified_spec unmodWitLeft unmodWitLeft false).2 rfl

/-! ### The resource index (`resource/resource_graph_storage.go`)

`byAPIBucket` is `map[API]*graphBucket`; `graphBucket` holds a nil-able
local slot (`*GraphNode`) and a remote map.  `API` is modelled as a
`String`, the graph-node handle as a type parameter `V`, the local slot as
`Option V`.  Go mutates the bucket map and the bucket structs in place
through the references stored in the trie; the pure model writes the updated
bucket map back through `Trie.set`, which produces the same abstract
state. -/

/-- Translation of `resource.Name` as the index uses it: base name (a byte
string, the trie key), API tag, and owning remote (`""` = local). -/
structure RName : Type where
  name : List Nat
  api : String
  remote : String
deriving DecidableEq

/-- Translation of `graphBucket`: `local *GraphNode` and
`remote map[string]*GraphNode`. -/
structure GraphBucket (V : Type) : Type where
  localNode : Option V
  remote : List (String × V)
deriving DecidableEq

/-- Translation of `resourcesMap`: one trie keyed by base name holding the
per-API bucket maps. -/
structure ResourcesMap (V : Type) : Type where
  trie : Trie (List (String × GraphBucket V))

/-- The empty index. -/
def ResourcesMap.empty {V : Type} : ResourcesMap V := ⟨Trie.empty⟩

/-- Write an updated bucket map back into the trie (the pure counterpart of
Go's in-place mutation through the stored map reference).  The `none` branch
of `Trie.set` is unreachable here because every caller obtained `key` from a
successful trie operation, so `key` is non-empty. -/
def trieWriteBack {T : Type} (t : Trie T) (key : List Nat) (v : T) : Trie T :=
  match t.set key v with
  | some res => res.1
  | none => t

/-- Translation of `PutByName`: get or create the bucket map for the base
name (`ComputeIfAbsent`, which panics — `none` — on an empty base name), get
or create the `(api)` bucket, then replace the local slot or the one remote
entry, returning the previous occupant of that exact slot. -/
def putByName {V : Type} (m : ResourcesMap V) (nm : RName) (node : V) :
    Option (ResourcesMap V × Option V) :=
  match m.trie.computeIfAbsent nm.name (fun _ => []) with
  | none => none
  | some res =>
    let t1 := res.1
    let byName := res.2.1
    let bucket := match lookupA nm.api byName with
      | some b => b
      | none => { localNode := none, remote := [] }
    if nm.remote = "" then
      let prev := bucket.localNode
      some (⟨trieWriteBack t1 nm.name
        (upsertA nm.api { bucket with localNode := some node } byName)⟩, prev)
    else
      let prev := lookupA nm.remote bucket.remote
      some (⟨trieWriteBack t1 nm.name
        (upsertA nm.api
          { bucket with remote := upsertA nm.remote node bucket.remote } byName)⟩, prev)

/-- Translation of `GetByName`: exact lookup; for a local name presence is
`local != nil`. -/
def getByName {V : Type} (m : ResourcesMap V) (nm : RName) : Option V :=
  match m.trie.get nm.name with
  | none => none
  | some byName =>
    match lookupA nm.api byName with
    | none => none
    | some bucket =>
      if nm.remote = "" then bucket.localNode
      else lookupA nm.remote bucket.remote

/-- Translation of `DeleteByName`: clear the local slot or remove the one
remote entry; if the bucket then has no local handle and no remote entries,
remove the bucket from the bucket map, and if the bucket map becomes empty,
delete the base name from the trie. -/
def deleteByName {V : Type} (m : ResourcesMap V) (nm : RName) : ResourcesMap V :=
  match m.trie.get nm.name with
  | none => m
  | some byName =>
    match lookupA nm.api byName with
    | none => m
    | some bucket =>
      let b2 := if nm.remote = "" then { bucket with localNode := none }
        else { bucket with remote := eraseA nm.remote bucket.remote }
      if b2.localNode.isNone && b2.remote.isEmpty then
        let byName2 := eraseA nm.api byName
        if byName2.isEmpty then ⟨(m.trie.delete nm.name).1⟩
        else ⟨trieWriteBack m.trie nm.name byName2⟩
      else ⟨trieWriteBack m.trie nm.name (upsertA nm.api b2 byName)⟩

mutual
/-- Translation of `walk`: yield the node's accumulated key and contents
when contents are present, then recurse into every child, prepending the
child's byte to the accumulated key. -/
def trieAllNode {T : Type} : TrieNode T → List Nat → List (List Nat × T)
  | .mk v children, key =>
    (match v with
     | some w => [(key, w)]
     | none => []) ++ trieAllChildren children key

/-- The `for prefix, child := range node.children` loop of `walk`. -/
def trieAllChildren {T : Type} : List (Nat × TrieNode T) → List Nat → List (List Nat × T)
  | [], _ => []
  | (c, n) :: rest, key => trieAllNode n (c :: key) ++ trieAllChildren rest key
end

/-- Translation of `All` on the trie: walk from the root with the empty
accumulated key. -/
def Trie.allList {T : Type} (t : Trie T) : List (List Nat × T) :=
  trieAllNode t.root []

/-- Duplicate-freedom of a byte-key list, as a boolean. -/
def nodupKeys : List Nat → Bool
  | [] => true
  | k :: rest => !(rest.contains k) && nodupKeys rest

mutual
/-- Structural well-formedness of a trie node: every children map binds each
byte at most once (true of every state a Go map can be in). -/
def TrieNode.wfB {T : Type} : TrieNode T → Bool
  | .mk _ children => nodupKeys (children.map Prod.fst) && wfChildren children

/-- Well-formedness of every node of a children list. -/
def wfChildren {T : Type} : List (Nat × TrieNode T) → Bool
  | [] => true
  | (_, n) :: rest => n.wfB && wfChildren rest
end

/-- Translation of `All` on the index: for every stored base name and every
API bucket, one local entry carrying the bucket's local slot (yielded by the
Go code even when the slot is nil), followed by the remote entries. -/
def allList {V : Type} (m : ResourcesMap V) : List (RName × Option V) :=
  m.trie.allList.flatMap fun kv =>
    kv.2.flatMap fun ab =>
      (⟨kv.1, ab.1, ""⟩, ab.2.localNode) ::
        ab.2.remote.map fun rv => (⟨kv.1, ab.1, rv.1⟩, some rv.2)

/-- Member-wise induction for `TrieNode`. -/
theorem TrieNode.recMem {T : Type} {motive : TrieNode T → Prop}
    (h : ∀ (v : Option T) (children : List (Nat × TrieNode T)),
      (∀ c ∈ children, motive c.2) → motive (.mk v children)) :
    ∀ n, motive n
  | .mk v children =>
    h v children fun c hc =>
      TrieNode.recMem h c.2
termination_by n => sizeOf n
decreasing_by
  simp_wf
  have h1 := List.sizeOf_lt_of_mem hc
  obtain ⟨cb, cn⟩ := c
  simp at h1 ⊢
  omega

theorem lookupA_mem {K V : Type} [DecidableEq K] {k : K} {x : V} {m : List (K × V)}
    (h : lookupA k m = some x) : (k, x) ∈ m := by
  induction m with
  | nil => simp [lookupA] at h
  | cons e rest ih =>
    obtain ⟨e1, e2⟩ := e
    rw [lookupA] at h
    by_cases hk : k = e1
    · rw [if_pos hk] at h
      obtain rfl : e2 = x := Option.some.inj h
      subst hk
      exact List.mem_cons_self _ _
    · rw [if_neg hk] at h
      exact List.mem_cons_of_mem _ (ih h)

theorem mem_lookupA {K V : Type} [DecidableEq K] {k : K} {x : V} {m : List (K × V)}
    (hnd : (m.map Prod.fst).Nodup) (hm : (k, x) ∈ m) : lookupA k m = some x := by
  induction m with
  | nil => simp at hm
  | cons e rest ih =>
    simp only [List.map_cons, List.nodup_cons] at hnd
    rcases List.mem_cons.mp hm with heq | hm'
    · rw [← heq, lookupA, if_pos rfl]
    · rw [lookupA]
      by_cases hk : k = e.1
      · exfalso
        apply hnd.1
        rw [← hk]
        exact List.mem_map_of_mem Prod.fst hm'
      · rw [if_neg hk]
        exact ih hnd.2 hm'

theorem nodupKeys_iff {l : List Nat} : nodupKeys l = true ↔ l.Nodup := by
  induction l with
  | nil => simp [nodupKeys]
  | cons k rest ih =>
    rw [nodupKeys, List.nodup_cons, Bool.and_eq_true, ← ih]
    constructor
    · rintro ⟨h1, h2⟩
      refine ⟨fun hmem => ?_, h2⟩
      have hcc : rest.contains k = true := List.elem_iff.mpr hmem
      rw [hcc] at h1
      simp at h1
    · rintro ⟨h1, h2⟩
      refine ⟨?_, h2⟩
      cases hcc : rest.contains k with
      | false => simp
      | true => exact absurd (List.elem_iff.mp hcc) h1

theorem wfChildren_iff {T : Type} {children : List (Nat × TrieNode T)} :
    wfChildren children = true ↔ ∀ c ∈ children, c.2.wfB = true := by
  induction children with
  | nil => simp [wfChildren]
  | cons c rest ih =>
    obtain ⟨cb, cn⟩ := c
    rw [wfChildren, Bool.and_eq_true, ih]
    constructor
    · rintro ⟨h1, h2⟩ x hx
      rcases List.mem_cons.mp hx with rfl | hx'
      · exact h1
      · exact h2 x hx'
    · intro h
      exact ⟨h (cb, cn) (List.mem_cons_self _ _),
        fun x hx => h x (List.mem_cons_of_mem _ hx)⟩

theorem wfB_destruct {T : Type} {v : Option T} {children : List (Nat × TrieNode T)}
    (h : (TrieNode.mk v children).wfB = true) :
    (children.map Prod.fst).Nodup ∧ ∀ c ∈ children, c.2.wfB = true := by
  rw [TrieNode.wfB, Bool.and_eq_true] at h
  exact ⟨nodupKeys_iff.mp h.1, wfChildren_iff.mp h.2⟩

theorem trieAllChildren_eq {T : Type} (children : List (Nat × TrieNode T))
    (key : List Nat) :
    trieAllChildren children key
      = children.flatMap (fun c => trieAllNode c.2 (c.1 :: key)) := by
  induction children with
  | nil => rfl
  | cons c rest ih =>
    obtain ⟨cb, cn⟩ := c
    rw [trieAllChildren, List.flatMap_cons, ih]

theorem trieAllNode_unfold {T : Type} (vl : Option T)
    (children : List (Nat × TrieNode T)) (acc : List Nat) :
    trieAllNode (TrieNode.mk vl children) acc =
      (match vl with
       | some w => [(acc, w)]
       | none => []) ++
      children.flatMap (fun c => trieAllNode c.2 (c.1 :: acc)) := by
  have h0 : trieAllNode (TrieNode.mk vl children) acc =
      (match vl with
       | some w => [(acc, w)]
       | none => []) ++ trieAllChildren children acc := rfl
  rw [h0, trieAllChildren_eq]

theorem mem_trieAllNode {T : Type} :
    ∀ (n : TrieNode T), n.wfB = true →
    ∀ (acc key : List Nat) (v : T),
    ((key, v) ∈ trieAllNode n acc ↔
      ∃ p, key = p.reverse ++ acc ∧ (rfind? n p).bind TrieNode.val = some v) := by
  intro n
  induction n using TrieNode.recMem with
  | h vl children ih =>
    intro hwf acc key v
    obtain ⟨hnd, hcwf⟩ := wfB_destruct hwf
    rw [trieAllNode_unfold, List.mem_append, List.mem_flatMap]
    constructor
    · rintro (hhead | ⟨c, hcmem, hcin⟩)
      · refine ⟨[], ?_, ?_⟩
        · cases hv : vl with
          | none => rw [hv] at hhead; simp at hhead
          | some w =>
            rw [hv] at hhead
            simp at hhead
            simp [hhead.1]
        · cases hv : vl with
          | none => rw [hv] at hhead; simp at hhead
          | some w =>
            rw [hv] at hhead
            simp at hhead
            simp [rfind?, TrieNode.val, hhead.2]
      · obtain ⟨q, hq, hr⟩ := (ih c hcmem (hcwf c hcmem) (c.1 :: acc) key v).mp hcin
        refine ⟨c.1 :: q, ?_, ?_⟩
        · rw [hq]
          simp
        · have hmemp : (c.1, c.2) ∈ children := by simpa using hcmem
          rw [rfind?, TrieNode.children, mem_lookupA hnd hmemp]
          exact hr
    · rintro ⟨p, hkey, hr⟩
      cases p with
      | nil =>
        left
        simp only [List.reverse_nil, List.nil_append] at hkey
        rw [hkey]
        have hv : vl = some v := hr
        rw [hv]
        simp
      | cons c0 q =>
        right
        rw [rfind?, TrieNode.children] at hr
        cases hlk : lookupA c0 children with
        | none => rw [hlk] at hr; simp at hr
        | some ch =>
          rw [hlk] at hr
          have hchmem : (c0, ch) ∈ children := lookupA_mem hlk
          refine ⟨(c0, ch), hchmem, ?_⟩
          refine (ih (c0, ch) hchmem (hcwf (c0, ch) hchmem) (c0 :: acc) key v).mpr ?_
          refine ⟨q, ?_, hr⟩
          rw [hkey]
          simp

theorem lookupA_upsertA_self {K V : Type} [DecidableEq K] (k : K) (v : V)
    (m : List (K × V)) : lookupA k (upsertA k v m) = some v := by
  induction m with
  | nil => simp [upsertA, lookupA]
  | cons e rest ih =>
    by_cases hk : k = e.1
    · rw [upsertA, if_pos hk, lookupA, if_pos rfl]
    · rw [upsertA, if_neg hk, lookupA, if_neg hk, ih]

theorem lookupA_eraseA_self {K V : Type} [DecidableEq K] {k : K} {m : List (K × V)}
    (hnd : (m.map Prod.fst).Nodup) : lookupA k (eraseA k m) = none := by
  induction m with
  | nil => rfl
  | cons e rest ih =>
    simp only [List.map_cons, List.nodup_cons] at hnd
    by_cases hk : k = e.1
    · rw [eraseA, if_pos hk, lookupA_eq_none]
      intro hmem
      exact hnd.1 (hk ▸ hmem)
    · rw [eraseA, if_neg hk, lookupA, if_neg hk, ih hnd.2]

theorem upsertA_ne_nil {K V : Type} [DecidableEq K] (k : K) (v : V)
    (m : List (K × V)) : upsertA k v m ≠ [] := by
  cases m with
  | nil => simp [upsertA]
  | cons e rest =>
    rw [upsertA]
    by_cases hk : k = e.1
    · rw [if_pos hk]; simp
    · rw [if_neg hk]; simp

theorem mem_upsertA {K V : Type} [DecidableEq K] {k : K} {v : V} {m : List (K × V)} :
    ∀ x ∈ upsertA k v m, x ∈ m ∨ x = (k, v) := by
  induction m with
  | nil => intro x hx; right; simpa [upsertA] using hx
  | cons e rest ih =>
    intro x hx
    by_cases hk : k = e.1
    · rw [upsertA, if_pos hk] at hx
      rcases List.mem_cons.mp hx with rfl | hx'
      · right; rfl
      · left; exact List.mem_cons_of_mem e hx'
    · rw [upsertA, if_neg hk] at hx
      rcases List.mem_cons.mp hx with rfl | hx'
      · left; exact List.mem_cons_self _ _
      · rcases ih x hx' with h | h
        · left; exact List.mem_cons_of_mem e h
        · right; exact h

theorem map_fst_upsertA {K V : Type} [DecidableEq K] (k : K) (v : V)
    (m : List (K × V)) :
    (upsertA k v m).map Prod.fst =
      if k ∈ m.map Prod.fst then m.map Prod.fst else m.map Prod.fst ++ [k] := by
  induction m with
  | nil => simp [upsertA]
  | cons e rest ih =>
    by_cases hk : k = e.1
    · rw [upsertA, if_pos hk]
      simp [hk]
    · rw [upsertA, if_neg hk, List.map_cons, List.map_cons, ih]
      by_cases hmem : k ∈ rest.map Prod.fst
      · rw [if_pos hmem, if_pos (by simp [hmem])]
      · rw [if_neg hmem, if_neg (by simp [hmem, fun h : k = e.1 => hk h]), List.cons_append]

theorem nodup_fst_upsertA {K V : Type} [DecidableEq K] {k : K} {v : V}
    {m : List (K × V)} (hnd : (m.map Prod.fst).Nodup) :
    ((upsertA k v m).map Prod.fst).Nodup := by
  rw [map_fst_upsertA]
  by_cases hmem : k ∈ m.map Prod.fst
  · rw [if_pos hmem]; exact hnd
  · rw [if_neg hmem, ← List.concat_eq_append]
    exact List.Nodup.concat hmem hnd

theorem wfB_empty_node {T : Type} : (TrieNode.mk (none : Option T) []).wfB = true := by
  rw [TrieNode.wfB]
  rfl

theorem rset_get_self {T : Type} (v : T) :
    ∀ (p : List Nat) (n : TrieNode T),
    (rfind? (rset v n p).1 p).bind TrieNode.val = some v := by
  intro p
  induction p with
  | nil => intro n; rfl
  | cons c rest ih =>
    intro n
    simp only [rset]
    rw [rfind?, TrieNode.children, lookupA_upsertA_self]
    exact ih _

theorem rdel_get_self {T : Type} :
    ∀ (p : List Nat) (n : TrieNode T),
    (rfind? (rdel n p).1 p).bind TrieNode.val = none := by
  intro p
  induction p with
  | nil => intro n; rfl
  | cons c rest ih =>
    intro n
    cases hlk : lookupA c n.children with
    | none =>
      simp only [rdel, hlk]
      rw [rfind?]
      rw [hlk]
      rfl
    | some ch =>
      simp only [rdel, hlk]
      rw [rfind?, TrieNode.children, lookupA_upsertA_self]
      exact ih _

theorem wfB_construct {T : Type} {v : Option T} {children : List (Nat × TrieNode T)}
    (h1 : (children.map Prod.fst).Nodup) (h2 : ∀ c ∈ children, c.2.wfB = true) :
    (TrieNode.mk v children).wfB = true := by
  rw [TrieNode.wfB, Bool.and_eq_true]
  exact ⟨nodupKeys_iff.mpr h1, wfChildren_iff.mpr h2⟩

theorem wfB_rset {T : Type} (v : T) :
    ∀ (p : List Nat) (n : TrieNode T), n.wfB = true → ((rset v n p).1).wfB = true := by
  intro p
  induction p with
  | nil =>
    intro n hwf
    obtain ⟨vl, children⟩ := n
    obtain ⟨h1, h2⟩ := wfB_destruct hwf
    exact wfB_construct h1 h2
  | cons c rest ih =>
    intro n hwf
    obtain ⟨vl, children⟩ := n
    obtain ⟨h1, h2⟩ := wfB_destruct hwf
    simp only [rset]
    refine wfB_construct (nodup_fst_upsertA h1) ?_
    intro cc hcc
    rcases mem_upsertA cc hcc with hmem | heq
    · exact h2 cc hmem
    · rw [heq]
      refine ih _ ?_
      cases hlk : lookupA c (TrieNode.mk vl children).children with
      | none => exact wfB_empty_node
      | some ch => exact h2 (c, ch) (lookupA_mem hlk)

theorem wfB_rdel {T : Type} :
    ∀ (p : List Nat) (n : TrieNode T), n.wfB = true → ((rdel n p).1).wfB = true := by
  intro p
  induction p with
  | nil =>
    intro n hwf
    obtain ⟨vl, children⟩ := n
    obtain ⟨h1, h2⟩ := wfB_destruct hwf
    exact wfB_construct h1 h2
  | cons c rest ih =>
    intro n hwf
    obtain ⟨vl, children⟩ := n
    obtain ⟨h1, h2⟩ := wfB_destruct hwf
    cases hlk : lookupA c (TrieNode.mk vl children).children with
    | none => simp only [rdel, hlk]; exact hwf
    | some ch =>
      simp only [rdel, hlk]
      refine wfB_construct (nodup_fst_upsertA h1) ?_
      intro cc hcc
      rcases mem_upsertA cc hcc with hmem | heq
      · exact h2 cc hmem
      · rw [heq]
        exact ih _ (h2 (c, ch) (lookupA_mem hlk))

theorem rset_val_ne {T : Type} (v : T) (n : TrieNode T) (p : List Nat) (hp : p ≠ []) :
    ((rset v n p).1).val = n.val := by
  cases p with
  | nil => exact absurd rfl hp
  | cons c rest => simp only [rset]; rfl

theorem rdel_val_ne {T : Type} (n : TrieNode T) (p : List Nat) (hp : p ≠ []) :
    ((rdel n p).1).val = n.val := by
  cases p with
  | nil => exact absurd rfl hp
  | cons c rest =>
    cases hlk : lookupA c n.children with
    | none => simp only [rdel, hlk]
    | some ch => simp only [rdel, hlk]; rfl

theorem mem_allList_get {T : Type} (t : Trie T) (hwf : t.root.wfB = true)
    (hroot : t.root.val = none) (key : List Nat) (v : T) :
    (key, v) ∈ t.allList ↔ t.get key = some v := by
  have hiff := mem_trieAllNode t.root hwf [] key v
  constructor
  · intro hmem
    obtain ⟨p, hkey, hr⟩ := hiff.mp hmem
    rw [List.append_nil] at hkey
    have hp : p ≠ [] := by
      rintro rfl
      have hv : t.root.val = some v := hr
      rw [hroot] at hv
      cases hv
    have hkne : key ≠ [] := by
      rw [hkey]
      simpa using hp
    rw [Trie.get, if_neg hkne, hkey, List.reverse_reverse]
    exact hr
  · intro hget
    rw [Trie.get] at hget
    by_cases hk : key = []
    · rw [if_pos hk] at hget
      cases hget
    · rw [if_neg hk] at hget
      exact hiff.mpr ⟨key.reverse, by simp, hget⟩

theorem get_set_self {T : Type} (t : Trie T) (key : List Nat) (v : T) (hk : key ≠ [])
    (t2 : Trie T × Option T) (hset : t.set key v = some t2) :
    t2.1.get key = some v := by
  rw [Trie.set, if_neg hk] at hset
  have ht : t2.1 = ⟨(rset v t.root key.reverse).1⟩ := by
    cases hset
    rfl
  rw [ht, Trie.get, if_neg hk]
  exact rset_get_self v key.reverse t.root

theorem get_writeBack_self {T : Type} (t : Trie T) (key : List Nat) (v : T)
    (hk : key ≠ []) : (trieWriteBack t key v).get key = some v := by
  rw [trieWriteBack]
  cases hset : t.set key v with
  | none =>
    rw [Trie.set, if_neg hk] at hset
    cases hset
  | some t2 => exact get_set_self t key v hk t2 hset

theorem get_delete_self {T : Type} (t : Trie T) (key : List Nat) :
    (t.delete key).1.get key = none := by
  by_cases hk : key = []
  · rw [hk]
    rfl
  · rw [Trie.delete, if_neg hk]
    rw [Trie.get, if_neg hk]
    exact rdel_get_self key.reverse t.root

theorem wfB_writeBack {T : Type} (t : Trie T) (key : List Nat) (v : T)
    (hwf : t.root.wfB = true) : (trieWriteBack t key v).root.wfB = true := by
  rw [trieWriteBack]
  by_cases hk : key = []
  · rw [Trie.set, if_pos hk]
    exact hwf
  · rw [Trie.set, if_neg hk]
    exact wfB_rset v key.reverse t.root hwf

theorem val_writeBack {T : Type} (t : Trie T) (key : List Nat) (v : T) (hk : key ≠ []) :
    (trieWriteBack t key v).root.val = t.root.val := by
  rw [trieWriteBack, Trie.set, if_neg hk]
  exact rset_val_ne v t.root key.reverse (by simpa using hk)

theorem wfB_delete {T : Type} (t : Trie T) (key : List Nat)
    (hwf : t.root.wfB = true) : (t.delete key).1.root.wfB = true := by
  by_cases hk : key = []
  · rw [Trie.delete, if_pos hk]
    exact hwf
  · rw [Trie.delete, if_neg hk]
    exact wfB_rdel key.reverse t.root hwf

theorem val_delete {T : Type} (t : Trie T) (key : List Nat) (hk : key ≠ []) :
    (t.delete key).1.root.val = t.root.val := by
  rw [Trie.delete, if_neg hk]
  exact rdel_val_ne t.root key.reverse (by simpa using hk)

/-- Well-formedness of an index state: the trie is structurally well-formed
(each children map binds a byte once) and stores nothing at the root (no
empty base name), every stored bucket map is non-empty with duplicate-free
API keys, and every bucket has a local handle or a remote entry, with a
duplicate-free remote map that never uses the empty remote name.  Every
state reachable through `PutByName`/`DeleteByName` satisfies this. -/
def ResWF {V : Type} (m : ResourcesMap V) : Prop :=
  m.trie.root.wfB = true ∧
  m.trie.root.val = none ∧
  ∀ kv ∈ m.trie.allList,
    kv.2 ≠ [] ∧
    (kv.2.map Prod.fst).Nodup ∧
    ∀ ab ∈ kv.2,
      (ab.2.localNode.isSome = true ∨ ab.2.remote ≠ []) ∧
      (ab.2.remote.map Prod.fst).Nodup ∧
      ¬ "" ∈ ab.2.remote.map Prod.fst

instance {V : Type} [DecidableEq V] (m : ResourcesMap V) : Decidable (ResWF m) := by
  unfold ResWF
  infer_instance

/-- The index state after registering one remote-owned resource: base name
`[97]` (the byte string `"a"`), API `"arm"`, remote `"gw"`, handle `5`. -/
def c7state : ResourcesMap Nat :=
  match putByName ResourcesMap.empty ⟨[97], "arm", "gw"⟩ 5 with
  | some res => res.1
  | none => ResourcesMap.empty

/-- C7 counterexample: in the state holding only the remote-owned resource,
`GetByName` reports no local handle for `([97], "arm", "")`, yet `All()`
yields a local entry for that name (with a nil handle) before the remote
entry — so `All` does not yield the local entry only when a local handle is
present. -/
theorem allList_local_cex :
    getByName c7state ⟨[97], "arm", ""⟩ = none ∧
    (⟨[97], "arm", ""⟩, (none : Option Nat)) ∈ allList c7state ∧
    (⟨[97], "arm", "gw"⟩, (some 5 : Option Nat)) ∈ allList c7state := by
  refine ⟨rfl, ?_, ?_⟩ <;> decide

/-- C7 (amended): for every class bucket of every base name, `All()` yields
one local entry carrying the bucket's local slot — whether or not a local
handle is present (a nil slot is yielded too) — followed by each remote
entry of the bucket: an entry is enumerated exactly when the corresponding
point lookup in the index finds its bucket. -/
theorem allList_spec {V : Type} (m : ResourcesMap V) (hwf : ResWF m)
    (nm : RName) (h : Option V) :
    (nm, h) ∈ allList m ↔
      ∃ byName bucket, m.trie.get nm.name = some byName ∧
        lookupA nm.api byName = some bucket ∧
        ((nm.remote = "" ∧ h = bucket.localNode) ∨
         (nm.remote ≠ "" ∧ ∃ v, lookupA nm.remote bucket.remote = some v ∧
           h = some v)) := by
  obtain ⟨hwfb, hroot, hent⟩ := hwf
  obtain ⟨nname, napi, nremote⟩ := nm
  constructor
  · intro hmem
    obtain ⟨kv, hkv, hin⟩ := List.mem_flatMap.mp hmem
    obtain ⟨ab, hab, hin2⟩ := List.mem_flatMap.mp hin
    obtain ⟨hne, hnd, habs⟩ := hent kv hkv
    obtain ⟨hbne, hrnd, hrne⟩ := habs ab hab
    have hget : m.trie.get kv.1 = some kv.2 :=
      (mem_allList_get m.trie hwfb hroot kv.1 kv.2).mp (by simpa using hkv)
    have hlook : lookupA ab.1 kv.2 = some ab.2 := mem_lookupA hnd (by simpa using hab)
    rcases List.mem_cons.mp hin2 with heq | hin3
    · cases heq
      exact ⟨kv.2, ab.2, hget, hlook, Or.inl ⟨rfl, rfl⟩⟩
    · obtain ⟨rv, hrv, heq⟩ := List.mem_map.mp hin3
      cases heq
      refine ⟨kv.2, ab.2, hget, hlook, Or.inr ⟨?_, rv.2, ?_, rfl⟩⟩
      · intro hempty
        exact hrne (hempty ▸ List.mem_map_of_mem Prod.fst hrv)
      · exact mem_lookupA hrnd (by simpa using hrv)
  · rintro ⟨byName, bucket, hget, hlook, hcase⟩
    have hkv : (nname, byName) ∈ m.trie.allList :=
      (mem_allList_get m.trie hwfb hroot nname byName).mpr hget
    have hab : (napi, bucket) ∈ byName := lookupA_mem hlook
    refine List.mem_flatMap.mpr ⟨(nname, byName), hkv,
      List.mem_flatMap.mpr ⟨(napi, bucket), hab, ?_⟩⟩
    rcases hcase with ⟨hrem, hh⟩ | ⟨hrem, v, hlookr, hh⟩
    · subst hrem
      subst hh
      exact List.mem_cons_self _ _
    · subst hh
      refine List.mem_cons_of_mem _
        (List.mem_map.mpr ⟨(nremote, v), lookupA_mem hlookr, rfl⟩)

/-- C7 witness: the amended enumeration theorem applied to the concrete
one-remote state and the remote entry it holds. -/
theorem allList_spec_witness :
    (⟨[97], "arm", "gw"⟩, (some 5 : Option Nat)) ∈ allList c7state ∧
    getByName c7state ⟨[97], "arm", "gw"⟩ = some 5 := by
  constructor
  · exact (allList_spec c7state (by decide) ⟨[97], "arm", "gw"⟩ (some 5)).mpr
      ⟨[("arm", ⟨none, [("gw", 5)]⟩)], ⟨none, [("gw", 5)]⟩, by decide, by decide,
        Or.inr ⟨by decide, 5, by decide, rfl⟩⟩
  · rfl

theorem allList_name_get {V : Type} (m : ResourcesMap V)
    (hwfb : m.trie.root.wfB = true) (hroot : m.trie.root.val = none) :
    ∀ p ∈ allList m, ∃ byName, m.trie.get p.1.name = some byName := by
  intro p hp
  obtain ⟨kv, hkv, hin⟩ := List.mem_flatMap.mp hp
  obtain ⟨ab, hab, hin2⟩ := List.mem_flatMap.mp hin
  have hget : m.trie.get kv.1 = some kv.2 :=
    (mem_allList_get m.trie hwfb hroot kv.1 kv.2).mp (by simpa using hkv)
  have hname : p.1.name = kv.1 := by
    rcases List.mem_cons.mp hin2 with heq | hin3
    · rw [heq]
    · obtain ⟨rv, hrv, heq⟩ := List.mem_map.mp hin3
      rw [← heq]
  exact ⟨kv.2, by rw [hname]; exact hget⟩

theorem name_absent_allList {V : Type} (m : ResourcesMap V)
    (hwfb : m.trie.root.wfB = true) (hroot : m.trie.root.val = none)
    (k : List Nat) (hnone : m.trie.get k = none) :
    ∀ p ∈ allList m, p.1.name ≠ k := by
  intro p hp heq
  obtain ⟨byName, hb⟩ := allList_name_get m hwfb hroot p hp
  rw [heq, hnone] at hb
  cases hb

/-- The bucket stored at `(base name, api)`, as `GetByName` reaches it. -/
def bucketAt {V : Type} (m : ResourcesMap V) (k : List Nat) (api : String) :
    Option (GraphBucket V) :=
  (m.trie.get k).bind (lookupA api)

theorem deleteByName_eq {V : Type} (m : ResourcesMap V) (nm : RName)
    (byName : List (String × GraphBucket V)) (bucket : GraphBucket V)
    (hg : m.trie.get nm.name = some byName)
    (hlk : lookupA nm.api byName = some bucket) (b2 : GraphBucket V)
    (hb2 : b2 = if nm.remote = "" then { bucket with localNode := none }
      else { bucket with remote := eraseA nm.remote bucket.remote }) :
    deleteByName m nm =
      if b2.localNode.isNone && b2.remote.isEmpty then
        (if (eraseA nm.api byName).isEmpty
          then (⟨(m.trie.delete nm.name).1⟩ : ResourcesMap V)
          else ⟨trieWriteBack m.trie nm.name (eraseA nm.api byName)⟩)
      else ⟨trieWriteBack m.trie nm.name (upsertA nm.api b2 byName)⟩ := by
  subst hb2
  simp only [deleteByName, hg, hlk]

theorem deleteByName_wf_root {V : Type} (m : ResourcesMap V) (nm : RName)
    (hwfb : m.trie.root.wfB = true) (hroot : m.trie.root.val = none) :
    (deleteByName m nm).trie.root.wfB = true ∧
    (deleteByName m nm).trie.root.val = none := by
  cases hg : m.trie.get nm.name with
  | none =>
    have hm : deleteByName m nm = m := by simp only [deleteByName, hg]
    rw [hm]
    exact ⟨hwfb, hroot⟩
  | some byName =>
    have hkne : nm.name ≠ [] := by
      intro hk
      rw [hk] at hg
      simp [Trie.get] at hg
    cases hlk : lookupA nm.api byName with
    | none =>
      have hm : deleteByName m nm = m := by simp only [deleteByName, hg, hlk]
      rw [hm]
      exact ⟨hwfb, hroot⟩
    | some bucket =>
      obtain ⟨b2, hb2⟩ : ∃ b2, b2 = if nm.remote = ""
          then ({ bucket with localNode := none } : GraphBucket V)
          else { bucket with remote := eraseA nm.remote bucket.remote } := ⟨_, rfl⟩
      rw [deleteByName_eq m nm byName bucket hg hlk b2 hb2]
      by_cases hcond : (b2.localNode.isNone && b2.remote.isEmpty) = true
      · rw [if_pos hcond]
        by_cases hbe : (eraseA nm.api byName).isEmpty = true
        · rw [if_pos hbe]
          exact ⟨wfB_delete m.trie nm.name hwfb,
            (val_delete m.trie nm.name hkne).trans hroot⟩
        · rw [if_neg hbe]
          exact ⟨wfB_writeBack m.trie nm.name _ hwfb,
            (val_writeBack m.trie nm.name _ hkne).trans hroot⟩
      · rw [if_neg hcond]
        exact ⟨wfB_writeBack m.trie nm.name _ hwfb,
          (val_writeBack m.trie nm.name _ hkne).trans hroot⟩

theorem deleteByName_bucket_clean {V : Type} (m : ResourcesMap V) (nm : RName)
    (hwfb : m.trie.root.wfB = true) (hroot : m.trie.root.val = none)
    (hent : ∀ kv ∈ m.trie.allList, kv.2 ≠ [] ∧ (kv.2.map Prod.fst).Nodup ∧
      ∀ ab ∈ kv.2, (ab.2.localNode.isSome = true ∨ ab.2.remote ≠ []) ∧
        (ab.2.remote.map Prod.fst).Nodup ∧ ¬ "" ∈ ab.2.remote.map Prod.fst) :
    ∀ b, bucketAt (deleteByName m nm) nm.name nm.api = some b →
      b.localNode.isSome = true ∨ b.remote ≠ [] := by
  intro b hb
  cases hg : m.trie.get nm.name with
  | none =>
    have hm : deleteByName m nm = m := by simp only [deleteByName, hg]
    rw [bucketAt, hm, hg] at hb
    exact Option.noConfusion hb
  | some byName =>
    have hkne : nm.name ≠ [] := by
      intro hk
      rw [hk] at hg
      simp [Trie.get] at hg
    obtain ⟨hbne, hnd, habs⟩ := hent (nm.name, byName)
      ((mem_allList_get m.trie hwfb hroot nm.name byName).mpr hg)
    cases hlk : lookupA nm.api byName with
    | none =>
      have hm : deleteByName m nm = m := by simp only [deleteByName, hg, hlk]
      rw [bucketAt, hm, hg] at hb
      have hb' : lookupA nm.api byName = some b := hb
      rw [hlk] at hb'
      exact Option.noConfusion hb'
    | some bucket =>
      obtain ⟨b2, hb2⟩ : ∃ b2, b2 = if nm.remote = ""
          then ({ bucket with localNode := none } : GraphBucket V)
          else { bucket with remote := eraseA nm.remote bucket.remote } := ⟨_, rfl⟩
      have heq := deleteByName_eq m nm byName bucket hg hlk b2 hb2
      rw [bucketAt, heq] at hb
      by_cases hcond : (b2.localNode.isNone && b2.remote.isEmpty) = true
      · rw [if_pos hcond] at hb
        by_cases hbe : (eraseA nm.api byName).isEmpty = true
        · rw [if_pos hbe] at hb
          have hdel : ((⟨(m.trie.delete nm.name).1⟩ : ResourcesMap V)).trie.get
              nm.name = none := get_delete_self m.trie nm.name
          rw [hdel] at hb
          exact Option.noConfusion hb
        · rw [if_neg hbe] at hb
          have hwb : ((⟨trieWriteBack m.trie nm.name (eraseA nm.api byName)⟩ :
              ResourcesMap V)).trie.get nm.name = some (eraseA nm.api byName) :=
            get_writeBack_self m.trie nm.name _ hkne
          rw [hwb] at hb
          have hb' : lookupA nm.api (eraseA nm.api byName) = some b := hb
          rw [lookupA_eraseA_self hnd] at hb'
          exact Option.noConfusion hb'
      · rw [if_neg hcond] at hb
        have hwb : ((⟨trieWriteBack m.trie nm.name (upsertA nm.api b2 byName)⟩ :
            ResourcesMap V)).trie.get nm.name = some (upsertA nm.api b2 byName) :=
          get_writeBack_self m.trie nm.name _ hkne
        rw [hwb] at hb
        have hb' : lookupA nm.api (upsertA nm.api b2 byName) = some b := hb
        rw [lookupA_upsertA_self] at hb'
        obtain rfl : b2 = b := Option.some.inj hb'
        rcases not_and_or.mp (by rw [← Bool.and_eq_true]; exact hcond) with h1 | h1
        · cases hval : b2.localNode with
          | none => exact absurd (by rw [hval]; rfl) h1
          | some v =>
            left
            rfl
        · right
          intro hnil
          exact h1 (by rw [hnil]; rfl)

theorem deleteByName_byName_clean {V : Type} (m : ResourcesMap V) (nm : RName)
    (hwfb : m.trie.root.wfB = true) (hroot : m.trie.root.val = none)
    (hent : ∀ kv ∈ m.trie.allList, kv.2 ≠ [] ∧ (kv.2.map Prod.fst).Nodup ∧
      ∀ ab ∈ kv.2, (ab.2.localNode.isSome = true ∨ ab.2.remote ≠ []) ∧
        (ab.2.remote.map Prod.fst).Nodup ∧ ¬ "" ∈ ab.2.remote.map Prod.fst) :
    ∀ byName2, (deleteByName m nm).trie.get nm.name = some byName2 →
      byName2 ≠ [] := by
  intro byName2 hb2m
  cases hg : m.trie.get nm.name with
  | none =>
    have hm : deleteByName m nm = m := by simp only [deleteByName, hg]
    rw [hm, hg] at hb2m
    exact Option.noConfusion hb2m
  | some byName =>
    have hkne : nm.name ≠ [] := by
      intro hk
      rw [hk] at hg
      simp [Trie.get] at hg
    obtain ⟨hbne, hnd, habs⟩ := hent (nm.name, byName)
      ((mem_allList_get m.trie hwfb hroot nm.name byName).mpr hg)
    cases hlk : lookupA nm.api byName with
    | none =>
      have hm : deleteByName m nm = m := by simp only [deleteByName, hg, hlk]
      rw [hm, hg] at hb2m
      obtain rfl : byName = byName2 := Option.some.inj hb2m
      exact hbne
    | some bucket =>
      obtain ⟨b2, hb2⟩ : ∃ b2, b2 = if nm.remote = ""
          then ({ bucket with localNode := none } : GraphBucket V)
          else { bucket with remote := eraseA nm.remote bucket.remote } := ⟨_, rfl⟩
      have heq := deleteByName_eq m nm byName bucket hg hlk b2 hb2
      rw [heq] at hb2m
      by_cases hcond : (b2.localNode.isNone && b2.remote.isEmpty) = true
      · rw [if_pos hcond] at hb2m
        by_cases hbe : (eraseA nm.api byName).isEmpty = true
        · rw [if_pos hbe] at hb2m
          have hdel : ((⟨(m.trie.delete nm.name).1⟩ : ResourcesMap V)).trie.get
              nm.name = none := get_delete_self m.trie nm.name
          rw [hdel] at hb2m
          exact Option.noConfusion hb2m
        · rw [if_neg hbe] at hb2m
          have hwb : ((⟨trieWriteBack m.trie nm.name (eraseA nm.api byName)⟩ :
              ResourcesMap V)).trie.get nm.name = some (eraseA nm.api byName) :=
            get_writeBack_self m.trie nm.name _ hkne
          rw [hwb] at hb2m
          obtain rfl : eraseA nm.api byName = byName2 := Option.some.inj hb2m
          intro hnil
          exact hbe (by rw [hnil]; rfl)
      · rw [if_neg hcond] at hb2m
        have hwb : ((⟨trieWriteBack m.trie nm.name (upsertA nm.api b2 byName)⟩ :
            ResourcesMap V)).trie.get nm.name = some (upsertA nm.api b2 byName) :=
          get_writeBack_self m.trie nm.name _ hkne
        rw [hwb] at hb2m
        obtain rfl : upsertA nm.api b2 byName = byName2 := Option.some.inj hb2m
        exact upsertA_ne_nil nm.api b2 byName

/-- C8: after `DeleteByName` on a well-formed index, the class bucket at the
deleted position, if still present, has a local handle or a remote entry (an
emptied bucket is removed from its base name's class set); the bucket map at
the base name, if still present, is non-empty (a base name left with no
buckets is removed from the trie); and once the base name is absent from the
trie it no longer appears in `All()`. -/
theorem deleteByName_cleanup {V : Type} (m : ResourcesMap V) (nm : RName)
    (hwf : ResWF m) :
    (∀ b, bucketAt (deleteByName m nm) nm.name nm.api = some b →
      b.localNode.isSome = true ∨ b.remote ≠ []) ∧
    (∀ byName2, (deleteByName m nm).trie.get nm.name = some byName2 →
      byName2 ≠ []) ∧
    ((deleteByName m nm).trie.get nm.name = none →
      ∀ p ∈ allList (deleteByName m nm), p.1.name ≠ nm.name) := by
  obtain ⟨hwfb, hroot, hent⟩ := hwf
  obtain ⟨hwfb', hroot'⟩ := deleteByName_wf_root m nm hwfb hroot
  exact ⟨deleteByName_bucket_clean m nm hwfb hroot hent,
    deleteByName_byName_clean m nm hwfb hroot hent,
    fun hnone => name_absent_allList _ hwfb' hroot' nm.name hnone⟩

/-- A second index state: the one-remote state plus a locally owned resource
under base name `[98]`. -/
def c8state : ResourcesMap Nat :=
  match putByName c7state ⟨[98], "arm", ""⟩ 7 with
  | some res => res.1
  | none => c7state

/-- C8 witness: deleting the only (remote) entry under base name `[97]`
empties its bucket and its bucket map and removes the base name from the
trie, so the remaining enumerated entry (the local resource under `[98]`)
does not carry the deleted base name. -/
theorem deleteByName_cleanup_witness :
    ((⟨[98], "arm", ""⟩ : RName), (some 7 : Option Nat)).1.name ≠ [97] :=
  (deleteByName_cleanup c8state ⟨[97], "arm", "gw"⟩ (by decide)).2.2 (by decide)
    ((⟨[98], "arm", ""⟩ : RName), (some 7 : Option Nat)) (by decide)
